import Mathlib

/-!
# Verification of the student-trajectory data pipeline

Shallow embedding of `src/sql/load_to_sqlite.py` (the generation-and-rollup
pipeline) and proofs about it.

Modelling conventions:
* Terms `"YYYY-Fall"` / `"YYYY-Spring"` and intakes `"YYYY-Sep"` / `"YYYY-Jan"`
  are represented structurally as (year, semester) / (year, month) pairs; the
  string round-trip is injective, so no information is lost.
* `pandas.Timestamp` dates are triples (year, month, day) ordered
  lexicographically; the per-day iteration `d0 + timedelta(days=i)` over a term
  is modelled by enumerating every calendar day of the term's months,
  including the leap-year rule for February.
* The numpy `Generator` created once per run by `np.random.default_rng(seed)`
  is external library code; it is modelled as an oracle (`Draws`): one
  deterministic function per sampling site, so a run is a pure function of the
  CLI parameters and the seed-derived oracle.  None of the verified claims
  depends on the interleaving order in which the single stream is consumed.
* `DataFrame.groupby(keys).agg(sum)` is modelled as: one output row per
  distinct key (first-occurrence order; pandas sorts group keys, but every
  property proved here is insensitive to row order), aggregating the matching
  rows.  `merge(..., on=keys)` (inner join) is modelled left-row-major.
-/

/-! ## Calendar resolver -/

inductive Sem : Type
  | Fall : Sem
  | Spring : Sem
deriving DecidableEq, Repr

/-- An academic term `"YYYY-Fall"` or `"YYYY-Spring"`. -/
structure Term : Type where
  year : Int
  sem : Sem
deriving DecidableEq, Repr

inductive IntakeMonth : Type
  | Sep : IntakeMonth
  | Jan : IntakeMonth
deriving DecidableEq, Repr

/-- An intake `"YYYY-Sep"` or `"YYYY-Jan"`. -/
structure Intake : Type where
  year : Int
  month : IntakeMonth
deriving DecidableEq, Repr

/-- The `PROGRAM_DURATION` dict of the loader. -/
def PROGRAM_DURATION : List (String × Nat) :=
  [("Medicine", 6), ("Nursing", 4), ("Pharmacy", 5)]

/-- `duration_map.get(program, 4)`: dict lookup with default 4. -/
def durationOf (dm : List (String × Nat)) (p : String) : Nat :=
  (dm.lookup p).getD 4

/-- `all_terms_for_program`: all Fall/Spring pairs of the programme, starting
from `first_fall_year` (= intake year, or the previous year for Jan intakes). -/
def all_terms_for_program (intake : Intake) (program : String)
    (dm : List (String × Nat)) : List Term :=
  let first_fall_year : Int :=
    if intake.month = IntakeMonth.Jan then intake.year - 1 else intake.year
  let n_years := durationOf dm program
  (List.range n_years).flatMap (fun k =>
    [⟨first_fall_year + k, Sem.Fall⟩, ⟨first_fall_year + k + 1, Sem.Spring⟩])

/-! ## Dates -/

/-- A calendar date (`pandas.Timestamp` at day resolution). -/
structure Date : Type where
  year : Int
  month : Nat
  day : Nat
deriving DecidableEq, Repr

/-- Lexicographic order on dates, matching timestamp comparison. -/
def dateLe (a b : Date) : Prop :=
  a.year < b.year ∨ (a.year = b.year ∧
    (a.month < b.month ∨ (a.month = b.month ∧ a.day ≤ b.day)))

instance (a b : Date) : Decidable (dateLe a b) := by
  unfold dateLe; exact inferInstance

/-- `term_dates`: Fall = Sep 1 .. Dec 31, Spring = Jan 1 .. Jun 30. -/
def term_dates (t : Term) : Date × Date :=
  match t.sem with
  | Sem.Fall => (⟨t.year, 9, 1⟩, ⟨t.year, 12, 31⟩)
  | Sem.Spring => (⟨t.year, 1, 1⟩, ⟨t.year, 6, 30⟩)

def isLeap (y : Int) : Bool :=
  y % 4 == 0 && (y % 100 != 0 || y % 400 == 0)

def daysInMonth (y : Int) (m : Nat) : Nat :=
  if m = 2 then (if isLeap y then 29 else 28)
  else if m = 4 ∨ m = 6 ∨ m = 9 ∨ m = 11 then 30
  else 31

def termMonths : Sem → List Nat
  | Sem.Fall => [9, 10, 11, 12]
  | Sem.Spring => [1, 2, 3, 4, 5, 6]

/-- Every calendar day of a term, in order.  This models the loader's
`d0 + timedelta(days=i) for i in range((d1 - d0).days + 1)`, which enumerates
exactly the days from the term's start date to its end date inclusive. -/
def termDays (t : Term) : List Date :=
  (termMonths t.sem).flatMap (fun m =>
    (List.range (daysInMonth t.year m)).map (fun d => ⟨t.year, m, d + 1⟩))

/-- Successor day in the calendar (used for event dates `enrol + k days`). -/
def nextDay (d : Date) : Date :=
  if d.day < daysInMonth d.year d.month then ⟨d.year, d.month, d.day + 1⟩
  else if d.month < 12 then ⟨d.year, d.month + 1, 1⟩
  else ⟨d.year + 1, 1, 1⟩

def addDays (d : Date) : Nat → Date
  | 0 => d
  | k + 1 => nextDay (addDays d k)

/-! ## The seeded random generator, as an oracle

`np.random.default_rng(seed)` is library code outside this repository.
Modelled from the spec: "all randomness is drawn from one generator instance
seeded once per run", so every sampled quantity is a deterministic function of
the seed; we record one function per sampling site of the loader.  Sites that
numpy samples per-student are indexed by the student's array index, per-term
sites by (student id, term), and so on.  Distribution parameters that the code
computes (propensities, Poisson means) are passed to the oracle unchanged. -/

structure Draws : Type where
  /-- `rng.choice(["Medicine","Nursing","Pharmacy"], p=[0.45,0.35,0.20])` per student. -/
  progChoice : Nat → String
  /-- `rng.integers(earliest_intake, latest_intake + 1)` per student;
  the two bounds the code computes are passed through. -/
  intakeYearDraw : Int → Int → Nat → Int
  /-- `rng.choice(["Sep","Jan"], p=[0.7,0.3])` per student. -/
  intakeMonthDraw : Nat → IntakeMonth
  /-- `rng.integers(18, 45)` per student. -/
  ageDraw : Nat → Nat
  /-- `rng.choice(["F","M"], p=[0.55,0.45])` per student. -/
  genderDraw : Nat → String
  /-- result of `rng.shuffle(combos)` inside `unique_names`. -/
  shuffled : List (String × String)
  /-- `rng.choice(middle)` at attempt `i` of the `unique_names` loop. -/
  mids : Nat → Char
  /-- `rng.integers(1, 9999)` at attempt `i` of the `unique_names` loop. -/
  sufs : Nat → Nat
  /-- `rng.beta(8, 2)` per (student, term). -/
  betaDraw : Nat → Term → ℚ
  /-- `rng.binomial(sessions, base)` per (student, term, week); the code's
  clipped propensity is passed through. -/
  binomDraw : Nat → Term → Nat → ℚ → Nat
  /-- `rng.normal(3, 1)` per (student, term). -/
  lmsBaseDraw : Nat → Term → ℚ
  /-- `max(0, int(rng.poisson(lam)))` per (student, term, day); `lam` passed through. -/
  poissonDraw : Nat → Term → Date → ℚ → Nat
  /-- `rng.normal(62, 15)` per (student, term). -/
  midtermDraw : Nat → Term → ℚ
  /-- `rng.normal(68, 14)` per (student, term). -/
  finalDraw : Nat → Term → ℚ
  /-- `rng.binomial(5, 0.12)` per (student, term). -/
  lateDraw : Nat → Term → Nat
  /-- `rng.random()` probation coin per student. -/
  probCoin : Nat → ℚ
  /-- `rng.random()` intervention coin per student. -/
  intervCoin : Nat → ℚ
  /-- `rng.choice(["Graduated","Withdrew","Deferred"], p=[0.85,0.10,0.05])` per student. -/
  outcomeDraw : Nat → String

/-! ## unique_names -/

def first_syl : List String :=
  ["A", "Be", "Ca", "Da", "El", "Fa", "Gi", "Ha", "I", "Ja", "Ka", "La", "Ma",
   "Na", "O", "Pa", "Qi", "Ra", "Sa", "Ta", "Uma", "Va", "Wa", "Xa", "Ya", "Za"]

def last_syl1 : List String :=
  ["Al", "Ben", "Car", "Dia", "Fern", "Gon", "Ham", "Ivan", "Jun", "Kim", "Lee",
   "Mor", "Nov", "Omar", "Park", "Quan", "Ross", "Sing", "Tan", "Umar", "Val",
   "Wang", "Xu", "Yam", "Zar"]

def last_syl2 : List String :=
  ["son", "s", "ez", "ov", "ski", "sen", "Li", "chi", "yan", "man", "ford",
   "elli", "dell", "berg", "wala", "ova", "ian", "aro", "etti", "ato", "ino"]

/-- `combos`: the (first syllable, concatenated last name) cross product, in
the loader's nesting order. -/
def combos : List (String × String) :=
  first_syl.flatMap (fun a =>
    last_syl1.flatMap (fun b =>
      last_syl2.map (fun c => (a, b ++ c))))

/-- The candidate string `f"{fi}na {la} {mid}."` built at attempt `i` of the
`unique_names` loop (`fi, la = combos[i % len(combos)]`). -/
def candidateAt (cs : List (String × String)) (mids : Nat → Char) (i : Nat) : String :=
  let p := cs.getD (i % cs.length) ("", "")
  p.1 ++ "na" ++ " " ++ p.2 ++ " " ++ String.singleton (mids i) ++ "."

/-- The last-resort candidate `f"{first} {la} {mid}.{rng.integers(1,9999)}"`. -/
def candidateSufAt (cs : List (String × String)) (mids : Nat → Char)
    (sufs : Nat → Nat) (i : Nat) : String :=
  candidateAt cs mids i ++ toString (sufs i)

/-- `if candidate not in used: out.append(candidate); used.add(candidate)`
(`used` always holds exactly the elements of `out`). -/
def addIfNew (c : String) (out : List String) : List String :=
  if c ∈ out then out else out ++ [c]

/-- One pass of the `while len(out) < n` loop of `unique_names`: try the
regular candidate, and past `2 * len(combos)` attempts also the last-resort
suffixed candidate.  The Python loop is unbounded; `fuel` is a modelling
device and the proofs show it is never exhausted for the inputs considered. -/
def namesLoop (cs : List (String × String)) (mids : Nat → Char)
    (sufs : Nat → Nat) (n : Nat) : Nat → Nat → List String → List String
  | 0, _, out => out
  | fuel + 1, i, out =>
    if n ≤ out.length then out
    else
      if 2 * cs.length < i + 1 then
        namesLoop cs mids sufs n fuel (i + 1)
          (addIfNew (candidateSufAt cs mids sufs i) (addIfNew (candidateAt cs mids i) out))
      else
        namesLoop cs mids sufs n fuel (i + 1) (addIfNew (candidateAt cs mids i) out)

/-- `unique_names(n, rng)`: `cs` is the shuffled `combos`, `mids`/`sufs` the
per-attempt draws.  Returns `out[:n]`. -/
def unique_names (n : Nat) (cs : List (String × String)) (mids : Nat → Char)
    (sufs : Nat → Nat) : List String :=
  (namesLoop cs mids sufs n (2 * cs.length + 2 * n + 2) 0 []).take n

/-! ## Base tables -/

/-- A row of the `students` table. -/
structure Student : Type where
  student_id : Nat
  full_name : String
  program : String
  intake : Intake
  age : Nat
  gender : String
  enrol_date : Date
deriving DecidableEq, Repr

/-- `make_students`: ids `1..n`, oracle-drawn demographics, unique names,
enrol date Sep 1 (Sep intakes) / Jan 15 (Jan intakes). -/
def make_students (n : Nat) (y0 y1 : Int) (d : Draws) : List Student :=
  let max_dur : Nat := 6
  let earliest_intake := y0
  let latest_intake := max y0 (y1 - max_dur)
  let names := unique_names n d.shuffled d.mids d.sufs
  (List.range n).map (fun i =>
    let iy := d.intakeYearDraw earliest_intake latest_intake i
    let im := d.intakeMonthDraw i
    { student_id := i + 1
      full_name := names.getD i ""
      program := d.progChoice i
      intake := ⟨iy, im⟩
      age := d.ageDraw i
      gender := d.genderDraw i
      enrol_date := if im = IntakeMonth.Sep then ⟨iy, 9, 1⟩ else ⟨iy, 1, 15⟩ })

/-- A student's resolved term list (the loader always passes `PROGRAM_DURATION`). -/
def termsOf (s : Student) : List Term :=
  all_terms_for_program s.intake s.program PROGRAM_DURATION

/-- A row of the `attendance` table. -/
structure AttRow : Type where
  student_id : Nat
  term : Term
  week : Nat
  sessions : Nat
  attended : Nat
deriving DecidableEq, Repr

/-- The per-(student, term) clipped attendance propensity
`np.clip(rng.beta(8,2) + boost, 0.05, 0.99)`. -/
def attBase (d : Draws) (r : Student) (term : Term) : ℚ :=
  max (5 / 100) (min (d.betaDraw r.student_id term +
    (if r.program = "Medicine" then 3 / 100 else 0)) (99 / 100))

/-- The 12 weekly attendance rows of one (student, term). -/
def attBlock (d : Draws) (r : Student) (term : Term) : List AttRow :=
  (List.range 12).map (fun w =>
    { student_id := r.student_id, term := term, week := w + 1,
      sessions := 5,
      attended := d.binomDraw r.student_id term (w + 1) (attBase d r term) })

/-- `make_attendance`: per term a clipped propensity, then 12 weeks of 5
sessions with binomially attended counts. -/
def make_attendance (students : List Student) (d : Draws) : List AttRow :=
  students.flatMap (fun r => (termsOf r).flatMap (fun term => attBlock d r term))

/-- A row of the `lms_activity` table. -/
structure LmsRow : Type where
  student_id : Nat
  activity_date : Date
  clicks : Nat
deriving DecidableEq, Repr

/-- The per-(student, term) Poisson mean
`max(0.8, rng.normal(3,1)) * program_multiplier`. -/
def lmsLam (d : Draws) (r : Student) (term : Term) : ℚ :=
  max (4 / 5) (d.lmsBaseDraw r.student_id term) *
    (if r.program = "Medicine" then 11 / 10
     else if r.program = "Nursing" then 19 / 20 else 1)

/-- The daily activity rows of one (student, term): one row per calendar day. -/
def lmsBlock (d : Draws) (r : Student) (term : Term) : List LmsRow :=
  (termDays term).map (fun dt =>
    { student_id := r.student_id, activity_date := dt,
      clicks := d.poissonDraw r.student_id term dt (lmsLam d r term) })

/-- `make_lms_activity`: per (student, term) a floored base mean and a
program multiplier, then one Poisson click count per day of the term. -/
def make_lms_activity (students : List Student) (d : Draws) : List LmsRow :=
  students.flatMap (fun r => (termsOf r).flatMap (fun term => lmsBlock d r term))

/-- A row of the `assessments` table. -/
structure AssessRow : Type where
  student_id : Nat
  term : Term
  midterm : ℚ
  final : ℚ
  late_submissions : Nat
deriving DecidableEq, Repr

/-- The single assessment row of one (student, term). -/
def assessRowOf (d : Draws) (r : Student) (term : Term) : AssessRow :=
  { student_id := r.student_id, term := term,
    midterm := max 0 (min (d.midtermDraw r.student_id term) 100),
    final := max 0 (min (d.finalDraw r.student_id term) 100),
    late_submissions := d.lateDraw r.student_id term }

/-- `make_assessments`: one row per (student, term), clipped normal scores. -/
def make_assessments (students : List Student) (d : Draws) : List AssessRow :=
  students.flatMap (fun r => (termsOf r).map (fun term => assessRowOf d r term))

/-- A row of the `student_events` table. -/
structure EventRow : Type where
  student_id : Nat
  event_type : String
  event_date : Date
  details : Option String
  term : Term
deriving DecidableEq, Repr

/-- `make_events`: Enrolled, optional probation/intervention, terminal outcome. -/
def make_events (students : List Student) (d : Draws) : List EventRow :=
  students.flatMap (fun r =>
    let terms := termsOf r
    let dflt : Term := ⟨0, Sem.Fall⟩
    let enrol := r.enrol_date
    let first := [(⟨r.student_id, "Enrolled", enrol, none, terms.getD 0 dflt⟩ : EventRow)]
    let prob :=
      if d.probCoin r.student_id < 18 / 100 then
        let tprob := terms.getD (min 1 (terms.length - 1)) dflt
        [(⟨r.student_id, "On Probation", addDays enrol 75, some "Low attendance", tprob⟩ : EventRow)]
        ++ (if d.intervCoin r.student_id < 3 / 5 then
              [(⟨r.student_id, "Intervention", addDays enrol 85, some "Advisor meeting", tprob⟩ : EventRow)]
            else [])
      else []
    let final_term := terms.getD (terms.length - 1) dflt
    let outcome :=
      [(⟨r.student_id, d.outcomeDraw r.student_id, (term_dates final_term).2, none,
         final_term⟩ : EventRow)]
    first ++ prob ++ outcome)

/-! ## Rollups -/

/-- Distinct values in first-occurrence order with a "seen" accumulator
(`pd.unique` / distinct groupby keys; pandas sorts group keys, which only
permutes rows — immaterial here). -/
def uniqFirstAux {α : Type} [DecidableEq α] (seen : List α) : List α → List α
  | [] => []
  | a :: l => if a ∈ seen then uniqFirstAux seen l else a :: uniqFirstAux (a :: seen) l

def uniqFirst {α : Type} [DecidableEq α] (l : List α) : List α :=
  uniqFirstAux [] l

/-- A row of the `attendance_term` table. -/
structure AttTermRow : Type where
  student_id : Nat
  term : Term
  total_sessions : Nat
  attended : Nat
deriving DecidableEq, Repr

/-- `attendance.groupby(["student_id","term"]).agg(sum sessions, sum attended)`. -/
def attendance_term (att : List AttRow) : List AttTermRow :=
  (uniqFirst (att.map (fun r => (r.student_id, r.term)))).map (fun p =>
    let grp := att.filter (fun r => decide ((r.student_id, r.term) = p))
    { student_id := p.1, term := p.2,
      total_sessions := (grp.map (fun r => r.sessions)).sum,
      attended := (grp.map (fun r => r.attended)).sum })

/-- A row of the `lms_term` table. -/
structure LmsTermRow : Type where
  student_id : Nat
  term : Term
  clicks : Nat
deriving DecidableEq, Repr

/-- The loader's `lms_term` computation: for each globally distinct term of
`attendance_term`, date-filter the whole `lms_activity` table into the term's
bounds and group the filtered rows by student, summing clicks. -/
def lms_term_code (att_term : List AttTermRow) (lms : List LmsRow) : List LmsTermRow :=
  (uniqFirst (att_term.map (fun r => r.term))).flatMap (fun term =>
    let lo := (term_dates term).1
    let hi := (term_dates term).2
    let m := lms.filter (fun r => decide (dateLe lo r.activity_date ∧ dateLe r.activity_date hi))
    (uniqFirst (m.map (fun r => r.student_id))).map (fun sid =>
      { student_id := sid, term := term,
        clicks := ((m.filter (fun r => decide (r.student_id = sid))).map (fun r => r.clicks)).sum }))

/-- Modelled from the spec (§4.4 Step 2): the per-student reduction of
Platform Activity — for each student and each term of that student's own
resolved term list, sum the clicks of that student's daily rows whose date
falls in the term's date range. -/
def lms_term_spec (students : List Student) (lms : List LmsRow) : List LmsTermRow :=
  students.flatMap (fun s =>
    (termsOf s).map (fun term =>
      let lo := (term_dates term).1
      let hi := (term_dates term).2
      { student_id := s.student_id, term := term,
        clicks := ((lms.filter (fun r => decide (r.student_id = s.student_id ∧
            dateLe lo r.activity_date ∧ dateLe r.activity_date hi))).map (fun r => r.clicks)).sum }))

/-! ## The analytic join -/

/-- Row after `students.merge(att_term, on=["student_id"])`. -/
structure M1Row : Type where
  student_id : Nat
  full_name : String
  program : String
  intake : Intake
  age : Nat
  gender : String
  enrol_date : Date
  term : Term
  total_sessions : Nat
  attended : Nat
deriving DecidableEq, Repr

/-- Row after the further `.merge(lms_term, on=["student_id","term"])`. -/
structure M2Row : Type where
  student_id : Nat
  full_name : String
  program : String
  intake : Intake
  age : Nat
  gender : String
  enrol_date : Date
  term : Term
  total_sessions : Nat
  attended : Nat
  clicks : Nat
deriving DecidableEq, Repr

/-- Row after the further `.merge(assessments, on=["student_id","term"])`. -/
structure JoinedRow : Type where
  student_id : Nat
  full_name : String
  program : String
  intake : Intake
  age : Nat
  gender : String
  enrol_date : Date
  term : Term
  total_sessions : Nat
  attended : Nat
  clicks : Nat
  midterm : ℚ
  final : ℚ
  late_submissions : Nat
deriving DecidableEq, Repr

/-- Inner merge `students ⋈ attendance_term` on `student_id`
(left-row-major, all matching right rows). -/
def merge1 (students : List Student) (att : List AttTermRow) : List M1Row :=
  students.flatMap (fun s =>
    (att.filter (fun a => decide (a.student_id = s.student_id))).map (fun a =>
      { student_id := s.student_id, full_name := s.full_name,
        program := s.program, intake := s.intake, age := s.age,
        gender := s.gender, enrol_date := s.enrol_date,
        term := a.term, total_sessions := a.total_sessions,
        attended := a.attended }))

/-- Inner merge with `lms_term` on `(student_id, term)`. -/
def merge2 (m1 : List M1Row) (lt : List LmsTermRow) : List M2Row :=
  m1.flatMap (fun r =>
    (lt.filter (fun l => decide (l.student_id = r.student_id ∧ l.term = r.term))).map (fun l =>
      { student_id := r.student_id, full_name := r.full_name,
        program := r.program, intake := r.intake, age := r.age,
        gender := r.gender, enrol_date := r.enrol_date,
        term := r.term, total_sessions := r.total_sessions,
        attended := r.attended, clicks := l.clicks }))

/-- Inner merge with `assessments` on `(student_id, term)`. -/
def merge3 (m2 : List M2Row) (asmt : List AssessRow) : List JoinedRow :=
  m2.flatMap (fun r =>
    (asmt.filter (fun q => decide (q.student_id = r.student_id ∧ q.term = r.term))).map (fun q =>
      { student_id := r.student_id, full_name := r.full_name,
        program := r.program, intake := r.intake, age := r.age,
        gender := r.gender, enrol_date := r.enrol_date,
        term := r.term, total_sessions := r.total_sessions,
        attended := r.attended, clicks := r.clicks,
        midterm := q.midterm, final := q.final,
        late_submissions := q.late_submissions }))

/-- `df["clicks"].rank(method="first")` at row index `i`: 1 + the number of
rows that are strictly smaller, ties broken by first occurrence. -/
def rankFirst (cl : List Nat) (i : Nat) : Nat :=
  1 + ((List.range cl.length).filter (fun j =>
    decide (cl.getD j 0 < cl.getD i 0 ∨ (cl.getD j 0 = cl.getD i 0 ∧ j < i)))).length

/-- `pd.qcut(ranks, 10, labels=False) + 1` on the rank column `1..N`:
the quantile bin edges are `1 + (i/10)*(N-1)` for `i = 0..10`, so rank `r ≥ 2`
lands in bucket `⌈10*(r-1)/(N-1)⌉` and rank 1 in bucket 1 (`include_lowest`).
Computed in exact arithmetic via `⌈a/b⌉ = (a + b - 1)/b`. -/
def qcutDecile (N r : Nat) : Nat :=
  if r ≤ 1 then 1 else (10 * (r - 1) + (N - 2)) / (N - 1)

def dfltJoined : JoinedRow :=
  { student_id := 0, full_name := "", program := "", intake := ⟨0, IntakeMonth.Sep⟩,
    age := 0, gender := "", enrol_date := ⟨0, 1, 1⟩, term := ⟨0, Sem.Fall⟩,
    total_sessions := 0, attended := 0, clicks := 0, midterm := 0, final := 0,
    late_submissions := 0 }

/-- A row of the persisted `analytic_student_term` table.  The loader writes
the merged frame wholesale, so every column of the three-way merge is kept,
plus the four derived columns in assignment order. -/
structure AnalyticRow : Type where
  student_id : Nat
  full_name : String
  program : String
  intake : Intake
  age : Nat
  gender : String
  enrol_date : Date
  term : Term
  total_sessions : Nat
  attended : Nat
  clicks : Nat
  midterm : ℚ
  final : ℚ
  late_submissions : Nat
  attendance_rate : ℚ
  activity_decile : Nat
  on_time_rate : ℚ
  at_risk : Bool
deriving DecidableEq, Repr

/-- The vectorized derived-column assignments of the loader:
`attendance_rate`, `activity_decile` (population-wide first-occurrence rank
bucketed into deciles), `on_time_rate`, `at_risk`. -/
def analyticBuild (j : List JoinedRow) (i : Nat) : AnalyticRow :=
  let cl := j.map (fun r => r.clicks)
  let N := j.length
  let r := j.getD i dfltJoined
  let attendance_rate : ℚ := (r.attended : ℚ) / (r.total_sessions : ℚ)
  let activity_decile : Nat := qcutDecile N (rankFirst cl i)
  let on_time_rate : ℚ := 1 - (r.late_submissions : ℚ) / 5
  { student_id := r.student_id, full_name := r.full_name,
    program := r.program, intake := r.intake, age := r.age,
    gender := r.gender, enrol_date := r.enrol_date, term := r.term,
    total_sessions := r.total_sessions, attended := r.attended,
    clicks := r.clicks, midterm := r.midterm, final := r.final,
    late_submissions := r.late_submissions,
    attendance_rate := attendance_rate,
    activity_decile := activity_decile,
    on_time_rate := on_time_rate,
    at_risk := decide ((attendance_rate < 80 / 100 ∨ activity_decile ≤ 2) ∧
      r.midterm < 50) }

def analytic_rows (j : List JoinedRow) : List AnalyticRow :=
  (List.range j.length).map (analyticBuild j)

/-- Column list of the `students` frame, in order. -/
def students_columns : List String :=
  ["student_id", "full_name", "program", "intake", "age", "gender", "enrol_date"]

/-- Columns of the frame written to `analytic_student_term`: the loader writes
the merged frame wholesale (`write_sqlite(con, "analytic_student_term", df, …)`
with no column selection), so the schema is the `students` columns, the
non-key columns appended by each merge, and the four assigned columns. -/
def analytic_columns : List String :=
  students_columns ++ ["term", "total_sessions", "attended"] ++ ["clicks"]
    ++ ["midterm", "final", "late_submissions"]
    ++ ["attendance_rate", "activity_decile", "on_time_rate", "at_risk"]

/-! ## The pipeline (`main`) -/

inductive Table : Type
  | students (rows : List Student)
  | attendance (rows : List AttRow)
  | lms_activity (rows : List LmsRow)
  | assessments (rows : List AssessRow)
  | student_events (rows : List EventRow)
  | attendance_term (rows : List AttTermRow)
  | lms_term (rows : List LmsTermRow)
  | analytic_student_term (rows : List AnalyticRow)
deriving DecidableEq, Repr

/-- Roster generated by a run. -/
def rosterOf (count : Nat) (y0 y1 : Int) (d : Draws) : List Student :=
  make_students count y0 y1 d

/-- The three-way merged frame of a run. -/
def joinedOf (count : Nat) (y0 y1 : Int) (d : Draws) : List JoinedRow :=
  let students := rosterOf count y0 y1 d
  let att_term := attendance_term (make_attendance students d)
  let lt := lms_term_code att_term (make_lms_activity students d)
  merge3 (merge2 (merge1 students att_term) lt) (make_assessments students d)

/-- The `analytic_student_term` rows of a run. -/
def pipeline_analytic (count : Nat) (y0 y1 : Int) (d : Draws) : List AnalyticRow :=
  analytic_rows (joinedOf count y0 y1 d)

/-- The loader entry point `main()` (named `mainRun` here since `main` is reserved): the sequence of successful `write_sqlite` calls and the process
exit code.  A negative `--students` makes numpy raise inside `make_students`,
before the connection is opened (nothing written, interpreter exits 1).
When `attendance_term` has no terms (no students), the `lms_term` loop
collects no pieces and `pd.concat([])` raises before `lms_term` is written:
six tables persist, exit code 1.  Otherwise `pd.qcut` raises when the merged
frame has fewer than 2 rows (duplicate bin edges); that exception is caught
after the seven earlier writes, exit code 1.  No validation of the window or
the count is performed anywhere. -/
def mainRun (count : Int) (y0 y1 : Int) (d : Draws) : List (String × Table) × Int :=
  if count < 0 then ([], 1)
  else
    let n := count.toNat
    let students := rosterOf n y0 y1 d
    let att := make_attendance students d
    let lms := make_lms_activity students d
    let asmt := make_assessments students d
    let ev := make_events students d
    let at_ := attendance_term att
    let base6 : List (String × Table) :=
      [("students", Table.students students),
       ("attendance", Table.attendance att),
       ("lms_activity", Table.lms_activity lms),
       ("assessments", Table.assessments asmt),
       ("student_events", Table.student_events ev),
       ("attendance_term", Table.attendance_term at_)]
    if uniqFirst (at_.map (fun r => r.term)) = [] then (base6, 1)
    else
      let lt := lms_term_code at_ lms
      let j := merge3 (merge2 (merge1 students at_) lt) asmt
      let base := base6 ++ [("lms_term", Table.lms_term lt)]
      if j.length ≤ 1 then (base, 1)
      else (base ++ [("analytic_student_term", Table.analytic_student_term (analytic_rows j))], 0)

/-! ## Shared concrete oracle (used to instantiate theorems at a concrete run) -/

def d0 : Draws :=
  { progChoice := fun _ => "Nursing"
    intakeYearDraw := fun _ _ _ => 2019
    intakeMonthDraw := fun _ => IntakeMonth.Sep
    ageDraw := fun _ => 20
    genderDraw := fun _ => "F"
    shuffled := []
    mids := fun _ => 'A'
    sufs := fun _ => 1
    betaDraw := fun _ _ => 1 / 2
    binomDraw := fun _ _ _ _ => 3
    lmsBaseDraw := fun _ _ => 3
    poissonDraw := fun _ _ _ _ => 2
    midtermDraw := fun _ _ => 60
    finalDraw := fun _ _ => 70
    lateDraw := fun _ _ => 1
    probCoin := fun _ => 1 / 2
    intervCoin := fun _ => 1 / 2
    outcomeDraw := fun _ => "Graduated" }

/-! ## Basic list lemmas -/

theorem uniqFirstAux_cons {α : Type} [DecidableEq α] (seen : List α) (a : α) (l : List α) :
    uniqFirstAux seen (a :: l) =
      if a ∈ seen then uniqFirstAux seen l else a :: uniqFirstAux (a :: seen) l := rfl

theorem mem_uniqFirstAux {α : Type} [DecidableEq α] (l : List α) :
    ∀ (seen : List α) (x : α), x ∈ uniqFirstAux seen l ↔ x ∈ l ∧ x ∉ seen := by
  induction l with
  | nil => intro seen x; simp [uniqFirstAux]
  | cons a l ih =>
    intro seen x
    rw [uniqFirstAux_cons]
    by_cases ha : a ∈ seen
    · rw [if_pos ha, ih]
      simp only [List.mem_cons]
      by_cases hxa : x = a
      · subst hxa; tauto
      · tauto
    · rw [if_neg ha]
      simp only [List.mem_cons, ih, List.mem_cons]
      by_cases hxa : x = a
      · subst hxa; tauto
      · tauto

theorem mem_uniqFirst {α : Type} [DecidableEq α] (l : List α) (x : α) :
    x ∈ uniqFirst l ↔ x ∈ l := by
  simp [uniqFirst, mem_uniqFirstAux]

theorem nodup_uniqFirstAux {α : Type} [DecidableEq α] (l : List α) :
    ∀ seen : List α, (uniqFirstAux seen l).Nodup := by
  induction l with
  | nil => intro seen; simp [uniqFirstAux]
  | cons a l ih =>
    intro seen
    rw [uniqFirstAux_cons]
    by_cases ha : a ∈ seen
    · rw [if_pos ha]; exact ih seen
    · rw [if_neg ha]
      refine List.nodup_cons.2 ⟨fun h => ?_, ih _⟩
      exact ((mem_uniqFirstAux l _ a).1 h).2 (List.mem_cons_self a seen)

theorem nodup_uniqFirst {α : Type} [DecidableEq α] (l : List α) :
    (uniqFirst l).Nodup := nodup_uniqFirstAux l []

theorem uniqFirstAux_replicate_append {α : Type} [DecidableEq α] (m : Nat) :
    ∀ (seen : List α) (k : α) (rest : List α),
      uniqFirstAux seen (List.replicate m k ++ rest) =
        if m = 0 then uniqFirstAux seen rest
        else if k ∈ seen then uniqFirstAux seen rest
        else k :: uniqFirstAux (k :: seen) rest := by
  induction m with
  | zero => intro seen k rest; simp
  | succ m ih =>
    intro seen k rest
    rw [List.replicate_succ, List.cons_append, uniqFirstAux_cons]
    by_cases hk : k ∈ seen
    · rw [if_pos hk, ih]
      by_cases hm : m = 0 <;> simp [hm, hk]
    · rw [if_neg hk, ih]
      have hk2 : k ∈ k :: seen := List.mem_cons_self _ _
      by_cases hm : m = 0 <;> simp [hm, hk, hk2]

theorem uniqFirstAux_flatMap_blocks {α κ : Type} [DecidableEq κ]
    (xs : List α) (key : α → κ) (c : α → Nat) :
    ∀ seen : List κ, (xs.map key).Nodup → (∀ x ∈ xs, key x ∉ seen) →
      uniqFirstAux seen (xs.flatMap fun x => List.replicate (c x) (key x)) =
        (xs.filter fun x => decide (c x ≠ 0)).map key := by
  induction xs with
  | nil => intro seen _ _; simp [uniqFirstAux]
  | cons x xs ih =>
    intro seen hnod hseen
    simp only [List.flatMap_cons]
    rw [uniqFirstAux_replicate_append]
    have hx_not_seen : key x ∉ seen := hseen x (List.mem_cons_self _ _)
    have hnod' : (xs.map key).Nodup := (List.nodup_cons.1 (by simpa using hnod)).2
    have hx_not_xs : key x ∉ xs.map key := (List.nodup_cons.1 (by simpa using hnod)).1
    by_cases hc : c x = 0
    · simp only [if_pos hc]
      rw [ih seen hnod' (fun x2 hx2 => hseen x2 (List.mem_cons_of_mem _ hx2))]
      simp [hc]
    · simp only [if_neg hc, if_neg hx_not_seen]
      rw [ih (key x :: seen) hnod' ?_]
      · simp [hc]
      · intro x2 hx2
        simp only [List.mem_cons]
        rintro (h | h)
        · exact hx_not_xs (h ▸ List.mem_map_of_mem key hx2)
        · exact hseen x2 (List.mem_cons_of_mem _ hx2) h

theorem uniqFirst_flatMap_blocks {α κ : Type} [DecidableEq κ]
    (xs : List α) (key : α → κ) (c : α → Nat) (hnod : (xs.map key).Nodup) :
    uniqFirst (xs.flatMap fun x => List.replicate (c x) (key x)) =
      (xs.filter fun x => decide (c x ≠ 0)).map key :=
  uniqFirstAux_flatMap_blocks xs key c [] hnod (by simp)

theorem filter_key_flatMap {ι ρ κ : Type} [DecidableEq κ]
    (xs : List ι) (f : ι → List ρ) (keyr : ρ → κ) (key : ι → κ)
    (hown : ∀ x ∈ xs, ∀ r ∈ f x, keyr r = key x) :
    ∀ x0 : ι, (xs.map key).Nodup → (x0 ∈ xs) →
      (xs.flatMap f).filter (fun r => decide (keyr r = key x0)) = f x0 := by
  induction xs with
  | nil => intro x0 _ h; simp at h
  | cons x xs ih =>
    intro x0 hnod hx0
    have hnod' : (xs.map key).Nodup := (List.nodup_cons.1 (by simpa using hnod)).2
    have hx_not_xs : key x ∉ xs.map key := (List.nodup_cons.1 (by simpa using hnod)).1
    simp only [List.flatMap_cons, List.filter_append]
    rcases List.mem_cons.1 hx0 with rfl | hmem
    · have h1 : (f x0).filter (fun r => decide (keyr r = key x0)) = f x0 := by
        rw [List.filter_eq_self]
        intro r hr
        simp [hown x0 (List.mem_cons_self _ _) r hr]
      have h2 : (xs.flatMap f).filter (fun r => decide (keyr r = key x0)) = [] := by
        rw [List.filter_eq_nil_iff]
        intro r hr
        rcases List.mem_flatMap.1 hr with ⟨x2, hx2, hr2⟩
        have hk := hown x2 (List.mem_cons_of_mem _ hx2) r hr2
        simp only [hk, decide_eq_true_eq]
        intro hkey
        exact hx_not_xs (hkey ▸ List.mem_map_of_mem key hx2)
      rw [h1, h2, List.append_nil]
    · have h1 : (f x).filter (fun r => decide (keyr r = key x0)) = [] := by
        rw [List.filter_eq_nil_iff]
        intro r hr
        have hk := hown x (List.mem_cons_self _ _) r hr
        simp only [hk, decide_eq_true_eq]
        intro hkey
        exact hx_not_xs (hkey ▸ List.mem_map_of_mem key hmem)
      rw [h1, List.nil_append]
      exact ih (fun x2 hx2 => hown x2 (List.mem_cons_of_mem _ hx2)) x0 hnod' hmem

theorem length_flatMap_pair {α β : Type} (l : List α) (f g : α → β) :
    (l.flatMap fun a => [f a, g a]).length = 2 * l.length := by
  induction l with
  | nil => simp
  | cons a l ih => simp [List.flatMap_cons, ih]; omega

theorem getD_flatMap_pair {α β : Type} (l : List α) (f g : α → β) (dflt : β) :
    ∀ k : Nat, (hk : k < l.length) →
      (l.flatMap fun a => [f a, g a]).getD (2 * k) dflt = f l[k]
      ∧ (l.flatMap fun a => [f a, g a]).getD (2 * k + 1) dflt = g l[k] := by
  induction l with
  | nil => intro k hk; simp at hk
  | cons a l ih =>
    intro k hk
    match k with
    | 0 => simp [List.flatMap_cons]
    | k + 1 =>
      have h2 : 2 * (k + 1) = (2 * k + 1) + 1 := by omega
      have h3 : 2 * (k + 1) + 1 = ((2 * k + 1) + 1) + 1 := by omega
      simp only [List.flatMap_cons, List.cons_append, h2, h3, List.getD_cons_succ,
        List.nil_append]
      exact ih k (by simpa using hk)

/-! ## Calendar resolver lemmas -/

theorem all_terms_length (intake : Intake) (p : String) (dm : List (String × Nat)) :
    (all_terms_for_program intake p dm).length = 2 * durationOf dm p := by
  unfold all_terms_for_program
  rw [length_flatMap_pair, List.length_range]

theorem all_terms_nodup (intake : Intake) (p : String) (dm : List (String × Nat)) :
    (all_terms_for_program intake p dm).Nodup := by
  unfold all_terms_for_program
  rw [List.nodup_flatMap]
  refine ⟨fun k _ => ?_, ?_⟩
  · simp
  · have : List.Pairwise (· < ·) (List.range (durationOf dm p)) := List.pairwise_lt_range _
    refine this.imp ?_
    intro j k hjk
    intro t ht ht2
    set ffy := if intake.month = IntakeMonth.Jan then intake.year - 1 else intake.year
      with hffy
    simp only [List.mem_cons, List.not_mem_nil, or_false] at ht ht2
    rcases ht with rfl | rfl <;> rcases ht2 with h | h <;>
      · injection h with hy hs
        first
        | exact absurd hs (by decide)
        | omega

/-- C2: the calendar resolver returns the `2·n` terms
`(first_fall_year+k)-Fall`, `(first_fall_year+k+1)-Spring` for `k < n`, in
chronological order, with `first_fall_year = intake_year - 1` for Jan intakes
and `= intake_year` for Sep intakes and `n = duration_table.get(program, 4)`;
in particular intake 2019-Jan with a duration-4 program resolves to
`[2018-Fall, 2019-Spring, …, 2021-Fall, 2022-Spring]`. -/
theorem C2_calendar_resolver (y : Int) (m : IntakeMonth) (p : String)
    (dm : List (String × Nat)) :
    (all_terms_for_program ⟨y, m⟩ p dm).length = 2 * durationOf dm p
    ∧ (∀ k : Nat, k < durationOf dm p →
        (all_terms_for_program ⟨y, m⟩ p dm).getD (2 * k) ⟨0, Sem.Fall⟩
          = ⟨(if m = IntakeMonth.Jan then y - 1 else y) + k, Sem.Fall⟩
        ∧ (all_terms_for_program ⟨y, m⟩ p dm).getD (2 * k + 1) ⟨0, Sem.Fall⟩
          = ⟨(if m = IntakeMonth.Jan then y - 1 else y) + k + 1, Sem.Spring⟩)
    ∧ all_terms_for_program ⟨2019, IntakeMonth.Jan⟩ "Nursing" PROGRAM_DURATION
        = [⟨2018, Sem.Fall⟩, ⟨2019, Sem.Spring⟩, ⟨2019, Sem.Fall⟩, ⟨2020, Sem.Spring⟩,
           ⟨2020, Sem.Fall⟩, ⟨2021, Sem.Spring⟩, ⟨2021, Sem.Fall⟩, ⟨2022, Sem.Spring⟩] := by
  refine ⟨all_terms_length _ _ _, fun k hk => ?_, by decide⟩
  have hk2 : k < (List.range (durationOf dm p)).length := by simpa using hk
  have h := getD_flatMap_pair (List.range (durationOf dm p))
    (fun k => (⟨(if m = IntakeMonth.Jan then y - 1 else y) + k, Sem.Fall⟩ : Term))
    (fun k => (⟨(if m = IntakeMonth.Jan then y - 1 else y) + k + 1, Sem.Spring⟩ : Term))
    ⟨0, Sem.Fall⟩ k hk2
  simp only [List.getElem_range] at h
  exact h

/-- Witness instantiating `C2_calendar_resolver` at a concrete input. -/
theorem C2_calendar_resolver_witness :
    (all_terms_for_program ⟨2019, IntakeMonth.Jan⟩ "Nursing" PROGRAM_DURATION).getD 2
      ⟨0, Sem.Fall⟩ = ⟨2019, Sem.Fall⟩ := by
  have h := ((C2_calendar_resolver 2019 IntakeMonth.Jan "Nursing" PROGRAM_DURATION).2.1 1
    (by decide)).1
  norm_num at h
  exact h

/-- C8 counterexample: the persisted `analytic_student_term` frame keeps every
column of the three-way merge (the loader writes `df` wholesale), so it has
columns beyond the ten the claim lists — e.g. `full_name`. -/
theorem C8_counterexample :
    "full_name" ∈ analytic_columns
    ∧ "full_name" ∉ ["student_id", "term", "program", "intake", "attendance_rate",
        "activity_decile", "on_time_rate", "midterm", "final", "at_risk"] := by
  constructor
  · decide
  · decide

/-- C8 (amended): the persisted `analytic_student_term` table has exactly the
18 columns of the merged frame — the ten columns the spec lists plus the
carried-over `full_name`, `age`, `gender`, `enrol_date`, `total_sessions`,
`attended`, `clicks`, `late_submissions`. -/
theorem C8_analytic_columns :
    analytic_columns =
      ["student_id", "full_name", "program", "intake", "age", "gender", "enrol_date",
       "term", "total_sessions", "attended", "clicks", "midterm", "final",
       "late_submissions", "attendance_rate", "activity_decile", "on_time_rate", "at_risk"]
    ∧ ["student_id", "term", "program", "intake", "attendance_rate", "activity_decile",
        "on_time_rate", "midterm", "final", "at_risk"] ⊆ analytic_columns := by
  constructor
  · decide
  · decide

/-- C5: a run is a deterministic function of (student count, window, seed):
with the seed-derived generator, equal parameters give identical contents for
every persisted table. -/
theorem C5_determinism (gen : Nat → Draws) (c1 c2 y01 y02 y11 y12 : Int)
    (s1 s2 : Nat) (hc : c1 = c2) (hy0 : y01 = y02) (hy1 : y11 = y12) (hs : s1 = s2) :
    mainRun c1 y01 y11 (gen s1) = mainRun c2 y02 y12 (gen s2) := by
  subst hc; subst hy0; subst hy1; subst hs; rfl

/-- Witness instantiating `C5_determinism` at a concrete run. -/
theorem C5_determinism_witness :
    mainRun 3 2012 2025 ((fun _ => d0) 42) = mainRun 3 2012 2025 ((fun _ => d0) 42) :=
  C5_determinism (fun _ => d0) 3 3 2012 2012 2025 2025 42 42 rfl rfl rfl rfl

/-! ## Analytic-row basics -/

theorem mem_analytic_rows (j : List JoinedRow) (row : AnalyticRow) :
    row ∈ analytic_rows j ↔ ∃ i < j.length, row = analyticBuild j i := by
  simp only [analytic_rows, List.mem_map, List.mem_range]
  constructor
  · rintro ⟨i, hi, rfl⟩; exact ⟨i, hi, rfl⟩
  · rintro ⟨i, hi, rfl⟩; exact ⟨i, hi, rfl⟩

theorem analytic_at_risk_formula (j : List JoinedRow) :
    ∀ row ∈ analytic_rows j,
      (row.at_risk = true ↔
        ((row.attendance_rate < 80 / 100 ∨ row.activity_decile ≤ 2) ∧
          row.midterm < 50)) := by
  intro row hrow
  rcases (mem_analytic_rows j row).1 hrow with ⟨i, hi, rfl⟩
  simp only [analyticBuild, decide_eq_true_eq]

/-- C3: in every persisted `analytic_student_term` row, the stored `at_risk`
equals `(attendance_rate < 0.80 OR activity_decile ≤ 2) AND midterm < 50`
evaluated on that same row's stored columns, with the default thresholds. -/
theorem C3_at_risk_formula (n : Nat) (y0 y1 : Int) (d : Draws) :
    ∀ row ∈ pipeline_analytic n y0 y1 d,
      (row.at_risk = true ↔
        ((row.attendance_rate < 80 / 100 ∨ row.activity_decile ≤ 2) ∧
          row.midterm < 50)) := by
  intro row hrow
  exact analytic_at_risk_formula _ row hrow

set_option maxRecDepth 1000000 in
/-- Witness instantiating `C3_at_risk_formula` at a concrete run and row. -/
theorem C3_at_risk_formula_witness :
    ((analyticBuild (joinedOf 1 2012 2025 d0) 0).at_risk = true ↔
      (((analyticBuild (joinedOf 1 2012 2025 d0) 0).attendance_rate < 80 / 100
        ∨ (analyticBuild (joinedOf 1 2012 2025 d0) 0).activity_decile ≤ 2)
        ∧ (analyticBuild (joinedOf 1 2012 2025 d0) 0).midterm < 50)) :=
  C3_at_risk_formula 1 2012 2025 d0 (analyticBuild (joinedOf 1 2012 2025 d0) 0)
    ((mem_analytic_rows (joinedOf 1 2012 2025 d0) _).2 ⟨0, by decide, rfl⟩)

/-! ## unique_names: name uniqueness -/

theorem split_at_space : ∀ (a : List Char) (b a2 b2 : List Char),
    ' ' ∉ a → ' ' ∉ a2 → a ++ ' ' :: b = a2 ++ ' ' :: b2 → a = a2 ∧ b = b2 := by
  intro a
  induction a with
  | nil =>
    intro b a2 b2 _ ha2 h
    cases a2 with
    | nil => simpa using h
    | cons c rest =>
      simp only [List.nil_append, List.cons_append, List.cons.injEq] at h
      exact absurd (h.1 ▸ List.mem_cons_self c rest) ha2
  | cons c resta ih =>
    intro b a2 b2 ha ha2 h
    cases a2 with
    | nil =>
      simp only [List.cons_append, List.nil_append, List.cons.injEq] at h
      exact absurd (h.1 ▸ List.mem_cons_self c resta) ha
    | cons c2 rest2 =>
      simp only [List.cons_append, List.cons.injEq] at h
      have hmem : ' ' ∉ resta := fun hm => ha (List.mem_cons_of_mem _ hm)
      have hmem2 : ' ' ∉ rest2 := fun hm => ha2 (List.mem_cons_of_mem _ hm)
      rcases ih b rest2 b2 hmem hmem2 h.2 with ⟨h1, h2⟩
      exact ⟨by rw [h.1, h1], h2⟩

theorem candidateAt_data (cs : List (String × String)) (mids : Nat → Char) (i : Nat) :
    (candidateAt cs mids i).data =
      ((cs.getD (i % cs.length) ("", "")).1.data ++ ['n', 'a']) ++
        ' ' :: ((cs.getD (i % cs.length) ("", "")).2.data ++ ' ' :: [mids i, '.']) := by
  simp [candidateAt, String.data_append, String.singleton]

theorem candidateAt_inj (cs : List (String × String)) (mids : Nat → Char)
    (hsp : ∀ p ∈ cs, ' ' ∉ p.1.data ∧ ' ' ∉ p.2.data) (hnd : cs.Nodup)
    {i j : Nat} (hi : i < cs.length) (hj : j < cs.length)
    (heq : candidateAt cs mids i = candidateAt cs mids j) : i = j := by
  have hdata := congrArg String.data heq
  rw [candidateAt_data, candidateAt_data, Nat.mod_eq_of_lt hi, Nat.mod_eq_of_lt hj] at hdata
  rw [List.getD_eq_getElem cs _ hi, List.getD_eq_getElem cs _ hj] at hdata
  have hpi := hsp cs[i] (List.getElem_mem hi)
  have hpj := hsp cs[j] (List.getElem_mem hj)
  have hspi1 : ' ' ∉ cs[i].1.data ++ ['n', 'a'] := by
    intro hm
    rcases List.mem_append.1 hm with hm | hm
    · exact hpi.1 hm
    · simp at hm
  have hspj1 : ' ' ∉ cs[j].1.data ++ ['n', 'a'] := by
    intro hm
    rcases List.mem_append.1 hm with hm | hm
    · exact hpj.1 hm
    · simp at hm
  rcases split_at_space _ _ _ _ hspi1 hspj1 hdata with ⟨h1, h2⟩
  rcases split_at_space _ _ _ _ hpi.2 hpj.2 h2 with ⟨h3, _⟩
  have hfst : cs[i].1 = cs[j].1 := String.ext (List.append_cancel_right h1)
  have hsnd : cs[i].2 = cs[j].2 := String.ext h3
  have : cs[i] = cs[j] := Prod.ext hfst hsnd
  exact (hnd.getElem_inj_iff).1 this

/-- The first `n` candidates of the `unique_names` loop. -/
def firstCandidates (cs : List (String × String)) (mids : Nat → Char) (n : Nat) :
    List String :=
  (List.range n).map (candidateAt cs mids)

theorem firstCandidates_length (cs : List (String × String)) (mids : Nat → Char)
    (n : Nat) : (firstCandidates cs mids n).length = n := by
  simp [firstCandidates]

theorem namesLoop_run (cs : List (String × String)) (mids : Nat → Char)
    (sufs : Nat → Nat) (hsp : ∀ p ∈ cs, ' ' ∉ p.1.data ∧ ' ' ∉ p.2.data)
    (hnd : cs.Nodup) (n : Nat) (hn : n ≤ cs.length) :
    ∀ (fuel i : Nat), i ≤ n → n - i < fuel →
      namesLoop cs mids sufs n fuel i (firstCandidates cs mids i) =
        firstCandidates cs mids n := by
  intro fuel
  induction fuel with
  | zero => intro i _ h; omega
  | succ f ih =>
    intro i hi hfuel
    by_cases hstop : n ≤ i
    · have : i = n := le_antisymm hi hstop
      subst this
      rw [namesLoop, if_pos (by rw [firstCandidates_length])]
    · push_neg at hstop
      rw [namesLoop, if_neg (by rw [firstCandidates_length]; omega)]
      have hc_not_mem : candidateAt cs mids i ∉ firstCandidates cs mids i := by
        intro hm
        simp only [firstCandidates, List.mem_map, List.mem_range] at hm
        rcases hm with ⟨j, hj, hje⟩
        have := candidateAt_inj cs mids hsp hnd (by omega) (by omega) hje
        omega
      rw [if_neg (show ¬(2 * cs.length < i + 1) by omega)]
      have hnext : addIfNew (candidateAt cs mids i) (firstCandidates cs mids i) =
          firstCandidates cs mids (i + 1) := by
        rw [addIfNew, if_neg hc_not_mem]
        simp [firstCandidates, List.range_succ]
      rw [hnext]
      exact ih (i + 1) (by omega) (by omega)

theorem unique_names_run (n : Nat) (cs : List (String × String)) (mids : Nat → Char)
    (sufs : Nat → Nat) (hsp : ∀ p ∈ cs, ' ' ∉ p.1.data ∧ ' ' ∉ p.2.data)
    (hnd : cs.Nodup) (hn : n ≤ cs.length) :
    unique_names n cs mids sufs = firstCandidates cs mids n := by
  unfold unique_names
  have h0 : ([] : List String) = firstCandidates cs mids 0 := rfl
  rw [h0, namesLoop_run cs mids sufs hsp hnd n hn _ 0 (by omega) (by omega)]
  exact List.take_of_length_le (by rw [firstCandidates_length])

/-! ### The concrete name namespace -/

def lastNames : List String :=
  last_syl1.flatMap (fun b => last_syl2.map (fun c => b ++ c))

theorem combos_eq :
    combos = first_syl.flatMap (fun a => lastNames.map (fun la => (a, la))) := by
  simp [combos, lastNames, List.map_flatMap, List.map_map, Function.comp_def]

theorem headD_append (l m : List Char) (d : Char) (h : l ≠ []) :
    (l ++ m).headD d = l.headD d := by
  cases l with
  | nil => exact absurd rfl h
  | cons c r => rfl

theorem last_syl1_concat_inj :
    ∀ b1 ∈ last_syl1, ∀ b2 ∈ last_syl1, ∀ c1 c2 : String,
      b1 ++ c1 = b2 ++ c2 → b1 = b2 := by
  have hheads : (last_syl1.map (fun s => s.data.headD ' ')).Nodup := by decide
  have hne : ∀ s ∈ last_syl1, s.data ≠ [] := by decide
  intro b1 h1 b2 h2 c1 c2 heq
  have hdata : b1.data ++ c1.data = b2.data ++ c2.data := by
    have := congrArg String.data heq
    simpa [String.data_append] using this
  have hhead : b1.data.headD ' ' = b2.data.headD ' ' := by
    rw [← headD_append b1.data c1.data ' ' (hne b1 h1),
      ← headD_append b2.data c2.data ' ' (hne b2 h2), hdata]
  exact List.inj_on_of_nodup_map hheads h1 h2 hhead

theorem lastNames_nodup : lastNames.Nodup := by
  rw [lastNames, List.nodup_flatMap]
  constructor
  · intro b hb
    refine List.Nodup.map_on ?_ (by decide)
    intro c1 h1 c2 h2 hcc
    have hd : b.data ++ c1.data = b.data ++ c2.data := by
      have := congrArg String.data hcc
      simpa [String.data_append] using this
    exact String.ext (List.append_cancel_left hd)
  · have hnd : last_syl1.Nodup := by decide
    refine hnd.imp_of_mem ?_
    intro b1 b2 h1 h2 hne s hs1 hs2
    simp only [List.mem_map] at hs1 hs2
    rcases hs1 with ⟨c1, _, rfl⟩
    rcases hs2 with ⟨c2, _, hc⟩
    exact hne (last_syl1_concat_inj b1 h1 b2 h2 c1 c2 hc.symm)

theorem combos_nodup : combos.Nodup := by
  rw [combos_eq, List.nodup_flatMap]
  constructor
  · intro a _
    refine List.Nodup.map ?_ lastNames_nodup
    intro x y hxy
    simpa using congrArg Prod.snd hxy
  · have hnd : first_syl.Nodup := by decide
    refine hnd.imp_of_mem ?_
    intro a1 a2 _ _ hne p hp1 hp2
    simp only [List.mem_map] at hp1 hp2
    rcases hp1 with ⟨la1, _, rfl⟩
    rcases hp2 with ⟨la2, _, hp⟩
    exact hne (congrArg Prod.fst hp).symm

theorem combos_space_free : ∀ p ∈ combos, ' ' ∉ p.1.data ∧ ' ' ∉ p.2.data := by
  have hfs : ∀ s ∈ first_syl, ' ' ∉ s.data := by decide
  have hl1 : ∀ s ∈ last_syl1, ' ' ∉ s.data := by decide
  have hl2 : ∀ s ∈ last_syl2, ' ' ∉ s.data := by decide
  intro p hp
  simp only [combos, List.mem_flatMap, List.mem_map] at hp
  rcases hp with ⟨a, ha, b, hb, c, hc, rfl⟩
  refine ⟨hfs a ha, ?_⟩
  simp only [String.data_append, List.mem_append]
  rintro (h | h)
  · exact hl1 b hb h
  · exact hl2 c hc h

/-- C10: for every requested count `n` no larger than the combinatorial
namespace (the shuffled syllable cross-product `combos`), `unique_names`
returns exactly `n` names and they are pairwise distinct: the first pass over
the shuffled namespace already yields `n` distinct candidates, so the
last-resort numeric-suffix branch is never reached. -/
theorem C10_name_generator (n : Nat) (cs : List (String × String))
    (mids : Nat → Char) (sufs : Nat → Nat) (hperm : cs.Perm combos)
    (hn : n ≤ combos.length) :
    (unique_names n cs mids sufs).length = n
    ∧ (unique_names n cs mids sufs).Nodup := by
  have hnd : cs.Nodup := (hperm.nodup_iff).2 combos_nodup
  have hsp : ∀ p ∈ cs, ' ' ∉ p.1.data ∧ ' ' ∉ p.2.data :=
    fun p hp => combos_space_free p (hperm.mem_iff.1 hp)
  have hlen : cs.length = combos.length := hperm.length_eq
  have hn2 : n ≤ cs.length := by omega
  rw [unique_names_run n cs mids sufs hsp hnd hn2]
  refine ⟨firstCandidates_length cs mids n, ?_⟩
  refine List.Nodup.map_on ?_ (List.nodup_range n)
  intro x hx y hy hxy
  simp only [List.mem_range] at hx hy
  exact candidateAt_inj cs mids hsp hnd (by omega) (by omega) hxy

set_option maxRecDepth 40000 in
theorem lastNames_length : lastNames.length = 525 := by decide

theorem combos_length : combos.length = 13650 := by
  rw [combos_eq, List.length_flatMap]
  have h1 : (first_syl.map (List.length ∘ fun a => lastNames.map (fun la => (a, la)))).sum
      = (first_syl.map (fun _ => 525)).sum := by
    simp [Function.comp_def, lastNames_length]
  rw [h1]
  set_option maxRecDepth 4000 in decide

/-- Witness instantiating `C10_name_generator` at a concrete input. -/
theorem C10_name_generator_witness :
    (unique_names 2 combos (fun _ => 'A') (fun _ => 1)).length = 2
    ∧ (unique_names 2 combos (fun _ => 'A') (fun _ => 1)).Nodup :=
  C10_name_generator 2 combos (fun _ => 'A') (fun _ => 1) (List.Perm.refl combos)
    (by rw [combos_length]; norm_num)

/-! ## Generator structure lemmas -/

theorem map_const_replicate {α β : Type} (l : List α) (c : β) :
    l.map (fun _ => c) = List.replicate l.length c := by
  induction l with
  | nil => rfl
  | cons a l ih => simp [ih, List.replicate_succ]

theorem map_eq_flatMap_singleton {α β : Type} (l : List α) (f : α → β) :
    l.map f = l.flatMap (fun x => [f x]) := by
  induction l with
  | nil => rfl
  | cons a l ih => simp [List.flatMap_cons, ih]

theorem flatMap_if_filter {α ρ : Type} (l : List α) (p : α → Bool) (f : α → List ρ) :
    l.flatMap (fun x => if p x then f x else []) = (l.filter p).flatMap f := by
  induction l with
  | nil => rfl
  | cons a l ih =>
    by_cases hp : p a
    · simp [List.flatMap_cons, List.filter_cons, hp, ih]
    · simp only [List.flatMap_cons, List.filter_cons]
      rw [if_neg (by simpa using hp), if_neg (by simpa using hp), List.nil_append, ih]

theorem flatMap_if_eq_mem {ρ : Type} {α : Type} [DecidableEq α] (tl : List α)
    (hnd : tl.Nodup) (t : α) (X : α → List ρ) :
    tl.flatMap (fun tt => if tt = t then X tt else []) = if t ∈ tl then X t else [] := by
  induction tl with
  | nil => simp
  | cons a tl ih =>
    have hnd' : tl.Nodup := (List.nodup_cons.1 hnd).2
    have ha : a ∉ tl := (List.nodup_cons.1 hnd).1
    by_cases hat : a = t
    · subst hat
      have hnone : tl.flatMap (fun tt => if tt = a then X tt else []) = [] := by
        rw [ih hnd']
        simp [ha]
      simp [List.flatMap_cons, hnone]
    · simp only [List.flatMap_cons, if_neg hat, List.nil_append, ih hnd']
      by_cases hmem : t ∈ tl
      · rw [if_pos hmem, if_pos (List.mem_cons_of_mem _ hmem)]
      · rw [if_neg hmem, if_neg (by
          simp only [List.mem_cons, not_or]
          exact ⟨fun h => hat h.symm, hmem⟩)]

/-- The (student, term) pairs of the roster, one per student and resolved term,
in generation order. -/
def pairsSt (students : List Student) : List (Student × Term) :=
  students.flatMap (fun s => (termsOf s).map (fun t => (s, t)))

theorem flatMap_terms_eq_pairsSt {ρ : Type} (students : List Student)
    (f : Student → Term → List ρ) :
    students.flatMap (fun s => (termsOf s).flatMap (fun t => f s t)) =
      (pairsSt students).flatMap (fun q => f q.1 q.2) := by
  rw [pairsSt, List.flatMap_assoc]
  simp [List.flatMap_map]

theorem pairsSt_map {ρ : Type} (students : List Student) (g : Student × Term → ρ) :
    (pairsSt students).map g =
      students.flatMap (fun s => (termsOf s).map (fun t => g (s, t))) := by
  simp [pairsSt, List.map_flatMap, List.map_map, Function.comp_def]

theorem mem_pairsSt (students : List Student) (q : Student × Term) :
    q ∈ pairsSt students ↔ q.1 ∈ students ∧ q.2 ∈ termsOf q.1 := by
  rcases q with ⟨s, t⟩
  simp only [pairsSt, List.mem_flatMap, List.mem_map]
  constructor
  · rintro ⟨s2, hs2, t2, ht2, h⟩
    rcases Prod.mk.injEq .. ▸ h with ⟨h1, h2⟩
    exact ⟨h1 ▸ hs2, by rw [← h1, ← h2] at *; exact ht2⟩
  · rintro ⟨hs, ht⟩
    exact ⟨s, hs, t, ht, rfl⟩

theorem pairsSt_sid_pairs (students : List Student) :
    (pairsSt students).map (fun q => (q.1.student_id, q.2)) =
      students.flatMap (fun s => (termsOf s).map (fun t => (s.student_id, t))) := by
  rw [pairsSt_map]

theorem students_pairwise_sid (students : List Student)
    (hids : (students.map (fun s => s.student_id)).Nodup) :
    students.Pairwise (fun s1 s2 => s1.student_id ≠ s2.student_id) := by
  have h : (students.map (fun s => s.student_id)).Pairwise (fun a b => a ≠ b) := hids
  exact (List.pairwise_map).1 h

theorem pairsSt_keys_nodup (students : List Student)
    (hids : (students.map (fun s => s.student_id)).Nodup) :
    ((pairsSt students).map (fun q => (q.1.student_id, q.2))).Nodup := by
  rw [pairsSt_sid_pairs, List.nodup_flatMap]
  refine ⟨fun s _ => ?_, ?_⟩
  · refine List.Nodup.map ?_ (all_terms_nodup _ _ _)
    intro x y hxy
    simpa using congrArg Prod.snd hxy
  · refine (students_pairwise_sid students hids).imp_of_mem ?_
    intro s1 s2 _ _ hne p hp1 hp2
    simp only [List.mem_map] at hp1 hp2
    rcases hp1 with ⟨t1, _, rfl⟩
    rcases hp2 with ⟨t2, _, hp⟩
    exact hne (congrArg Prod.fst hp).symm

theorem make_students_sid_map (n : Nat) (y0 y1 : Int) (d : Draws) :
    (make_students n y0 y1 d).map (fun s => s.student_id) =
      (List.range n).map (fun i => i + 1) := by
  simp [make_students, List.map_map, Function.comp_def]

theorem make_students_sid_nodup (n : Nat) (y0 y1 : Int) (d : Draws) :
    ((make_students n y0 y1 d).map (fun s => s.student_id)).Nodup := by
  rw [make_students_sid_map]
  exact List.Nodup.map (fun a b h => by omega) (List.nodup_range n)

theorem make_students_length (n : Nat) (y0 y1 : Int) (d : Draws) :
    (make_students n y0 y1 d).length = n := by
  simp [make_students]

/-- The `attendance_term` row of one (student, term): 60 total sessions,
attended = the sum of the 12 weekly binomial draws. -/
def attTermRowOf (d : Draws) (r : Student) (term : Term) : AttTermRow :=
  { student_id := r.student_id, term := term,
    total_sessions := 60,
    attended := ((List.range 12).map
      (fun w => d.binomDraw r.student_id term (w + 1) (attBase d r term))).sum }

theorem attBlock_map_key (d : Draws) (r : Student) (term : Term) :
    (attBlock d r term).map (fun x => (x.student_id, x.term)) =
      List.replicate 12 (r.student_id, term) := by
  rw [attBlock, List.map_map]
  have h := map_const_replicate (List.range 12) (r.student_id, term)
  simp only [List.length_range] at h
  exact h

theorem attBlock_sessions_sum (d : Draws) (r : Student) (term : Term) :
    ((attBlock d r term).map (fun x => x.sessions)).sum = 60 := by
  rw [attBlock, List.map_map]
  have := map_const_replicate (List.range 12) (5 : Nat)
  simp only [Function.comp_def] at this ⊢
  rw [this]
  simp [List.sum_replicate]

theorem make_attendance_eq (students : List Student) (d : Draws) :
    make_attendance students d = (pairsSt students).flatMap (fun q => attBlock d q.1 q.2) :=
  flatMap_terms_eq_pairsSt students _

theorem attendance_term_eq (students : List Student) (d : Draws)
    (hids : (students.map (fun s => s.student_id)).Nodup) :
    attendance_term (make_attendance students d) =
      (pairsSt students).map (fun q => attTermRowOf d q.1 q.2) := by
  have hkeys : (make_attendance students d).map (fun r => (r.student_id, r.term)) =
      (pairsSt students).flatMap
        (fun q => List.replicate ((fun _ => 12) q) ((fun q : Student × Term => (q.1.student_id, q.2)) q)) := by
    rw [make_attendance_eq, List.map_flatMap]
    simp only [attBlock_map_key]
  unfold attendance_term
  rw [hkeys, uniqFirst_flatMap_blocks (pairsSt students)
    (fun q => (q.1.student_id, q.2)) (fun _ => 12) (pairsSt_keys_nodup students hids)]
  have hfid : (pairsSt students).filter (fun q => decide ((fun _ => (12:Nat)) q ≠ 0)) =
      pairsSt students := by
    simp
  rw [hfid, List.map_map]
  refine List.map_congr_left ?_
  intro q hq
  have hown : ∀ x ∈ pairsSt students, ∀ r ∈ attBlock d x.1 x.2,
      (r.student_id, r.term) = (x.1.student_id, x.2) := by
    intro x hx r hr
    simp only [attBlock, List.mem_map, List.mem_range] at hr
    rcases hr with ⟨w, _, rfl⟩
    rfl
  have hfilter : (make_attendance students d).filter
      (fun r => decide ((r.student_id, r.term) = (q.1.student_id, q.2))) =
      attBlock d q.1 q.2 := by
    rw [make_attendance_eq]
    exact filter_key_flatMap (pairsSt students) (fun x => attBlock d x.1 x.2)
      (fun r => (r.student_id, r.term)) (fun x => (x.1.student_id, x.2)) hown q
      (pairsSt_keys_nodup students hids) hq
  simp only [Function.comp_def, hfilter, attTermRowOf, attBlock_sessions_sum]
  rw [attBlock, List.map_map]
  rfl

/-! ## Date-range lemmas: a day belongs to exactly one term -/

theorem daysInMonth_le (y : Int) (m : Nat) : daysInMonth y m ≤ 31 := by
  unfold daysInMonth
  split
  · split <;> omega
  · split <;> omega

theorem daysInMonth_pos (y : Int) (m : Nat) : 1 ≤ daysInMonth y m := by
  unfold daysInMonth
  split
  · split <;> omega
  · split <;> omega

theorem mem_termDays (t : Term) (dt : Date) :
    dt ∈ termDays t ↔ dt.year = t.year ∧ dt.month ∈ termMonths t.sem ∧
      1 ≤ dt.day ∧ dt.day ≤ daysInMonth t.year dt.month := by
  rcases dt with ⟨dy, dm, dd⟩
  simp only [termDays, List.mem_flatMap, List.mem_map, List.mem_range]
  constructor
  · rintro ⟨m, hm, k, hk, h⟩
    rcases Date.mk.injEq .. ▸ h with ⟨h1, h2, h3⟩
    subst h1; subst h2; subst h3
    exact ⟨rfl, hm, by omega, by omega⟩
  · rintro ⟨hy, hm, h1, h2⟩
    refine ⟨dm, hm, dd - 1, by omega, ?_⟩
    simp only [Date.mk.injEq]
    exact ⟨hy.symm, trivial, by omega⟩

theorem dateLe_mk (y1 y2 : Int) (m1 m2 d1 d2 : Nat) :
    dateLe ⟨y1, m1, d1⟩ ⟨y2, m2, d2⟩ ↔
      (y1 < y2 ∨ (y1 = y2 ∧ (m1 < m2 ∨ (m1 = m2 ∧ d1 ≤ d2)))) := Iff.rfl

theorem termDays_between (t : Term) (dt : Date) (h : dt ∈ termDays t) :
    dateLe (term_dates t).1 dt ∧ dateLe dt (term_dates t).2 := by
  rcases t with ⟨y, sem⟩
  rcases dt with ⟨dy, dm, dd⟩
  rw [mem_termDays] at h
  obtain ⟨hy, hm, h1, h2⟩ := h
  simp only at hy hm h1 h2
  have hd31 : dd ≤ 31 := le_trans h2 (daysInMonth_le _ _)
  cases sem with
  | Fall =>
    have hdm : dm = 9 ∨ dm = 10 ∨ dm = 11 ∨ dm = 12 := by
      simpa [termMonths] using hm
    constructor
    · show dateLe ⟨y, 9, 1⟩ ⟨dy, dm, dd⟩
      rw [dateLe_mk]
      omega
    · show dateLe ⟨dy, dm, dd⟩ ⟨y, 12, 31⟩
      rw [dateLe_mk]
      omega
  | Spring =>
    have hdm : dm = 1 ∨ dm = 2 ∨ dm = 3 ∨ dm = 4 ∨ dm = 5 ∨ dm = 6 := by
      simpa [termMonths] using hm
    have hd30 : dm = 6 → dd ≤ 30 := by
      intro h6
      rw [h6] at h2
      simpa [daysInMonth] using h2
    constructor
    · show dateLe ⟨y, 1, 1⟩ ⟨dy, dm, dd⟩
      rw [dateLe_mk]
      omega
    · show dateLe ⟨dy, dm, dd⟩ ⟨y, 6, 30⟩
      rw [dateLe_mk]
      by_cases h6 : dm = 6
      · have := hd30 h6
        omega
      · omega

theorem between_termDays_unique (t t2 : Term) (dt : Date) (h : dt ∈ termDays t)
    (hb1 : dateLe (term_dates t2).1 dt) (hb2 : dateLe dt (term_dates t2).2) :
    t2 = t := by
  rcases t with ⟨y, sem⟩
  rcases t2 with ⟨y2, sem2⟩
  rcases dt with ⟨dy, dm, dd⟩
  rw [mem_termDays] at h
  obtain ⟨hy, hm, h1, h2⟩ := h
  simp only at hy hm h1 h2
  cases sem with
  | Fall =>
    have hdm : 9 ≤ dm ∧ dm ≤ 12 := by
      rcases (by simpa [termMonths] using hm : dm = 9 ∨ dm = 10 ∨ dm = 11 ∨ dm = 12)
        with rfl | rfl | rfl | rfl <;> omega
    cases sem2 with
    | Fall =>
      have hb1a : dateLe ⟨y2, 9, 1⟩ ⟨dy, dm, dd⟩ := hb1
      have hb2a : dateLe ⟨dy, dm, dd⟩ ⟨y2, 12, 31⟩ := hb2
      rw [dateLe_mk] at hb1a hb2a
      simp only [Term.mk.injEq]
      refine ⟨?_, trivial⟩
      omega
    | Spring =>
      exfalso
      have hb1a : dateLe ⟨y2, 1, 1⟩ ⟨dy, dm, dd⟩ := hb1
      have hb2a : dateLe ⟨dy, dm, dd⟩ ⟨y2, 6, 30⟩ := hb2
      rw [dateLe_mk] at hb1a hb2a
      omega
  | Spring =>
    have hdm : 1 ≤ dm ∧ dm ≤ 6 := by
      rcases (by simpa [termMonths] using hm :
        dm = 1 ∨ dm = 2 ∨ dm = 3 ∨ dm = 4 ∨ dm = 5 ∨ dm = 6)
        with rfl | rfl | rfl | rfl | rfl | rfl <;> omega
    cases sem2 with
    | Fall =>
      exfalso
      have hb1a : dateLe ⟨y2, 9, 1⟩ ⟨dy, dm, dd⟩ := hb1
      have hb2a : dateLe ⟨dy, dm, dd⟩ ⟨y2, 12, 31⟩ := hb2
      rw [dateLe_mk] at hb1a hb2a
      omega
    | Spring =>
      have hb1a : dateLe ⟨y2, 1, 1⟩ ⟨dy, dm, dd⟩ := hb1
      have hb2a : dateLe ⟨dy, dm, dd⟩ ⟨y2, 6, 30⟩ := hb2
      rw [dateLe_mk] at hb1a hb2a
      simp only [Term.mk.injEq]
      refine ⟨?_, trivial⟩
      omega

theorem termDays_ne_nil (t : Term) : termDays t ≠ [] := by
  rcases t with ⟨y, sem⟩
  cases sem with
  | Fall =>
    refine List.ne_nil_of_mem (a := ⟨y, 9, 1⟩) ?_
    rw [mem_termDays]
    exact ⟨rfl, by simp [termMonths], Nat.le_refl 1, daysInMonth_pos y 9⟩
  | Spring =>
    refine List.ne_nil_of_mem (a := ⟨y, 1, 1⟩) ?_
    rw [mem_termDays]
    exact ⟨rfl, by simp [termMonths], Nat.le_refl 1, daysInMonth_pos y 1⟩

/-! ## lms_term: code form and spec form -/

theorem flatMap_congr_mem {α β : Type} (l : List α) (f g : α → List β)
    (h : ∀ a ∈ l, f a = g a) : l.flatMap f = l.flatMap g := by
  induction l with
  | nil => rfl
  | cons a l ih =>
    simp only [List.flatMap_cons]
    rw [h a (List.mem_cons_self _ _), ih (fun a ha => h a (List.mem_cons_of_mem _ ha))]

theorem flatMap_ite_filter {α ρ : Type} (l : List α) (p : α → Prop) [DecidablePred p]
    (f : α → List ρ) :
    l.flatMap (fun x => if p x then f x else []) =
      (l.filter (fun x => decide (p x))).flatMap f := by
  induction l with
  | nil => rfl
  | cons a l ih =>
    by_cases hp : p a
    · simp [List.flatMap_cons, List.filter_cons, hp, ih]
    · simp only [List.flatMap_cons, List.filter_cons]
      rw [if_neg hp, if_neg (by simpa using hp), List.nil_append, ih]

/-- Total clicks of one (student, term): the sum of the daily Poisson draws. -/
def lmsTotal (d : Draws) (r : Student) (term : Term) : Nat :=
  ((termDays term).map (fun dt => d.poissonDraw r.student_id term dt (lmsLam d r term))).sum

theorem lmsBlock_map_sid (d : Draws) (r : Student) (term : Term) :
    (lmsBlock d r term).map (fun x => x.student_id) =
      List.replicate (termDays term).length r.student_id := by
  rw [lmsBlock, List.map_map]
  have h := map_const_replicate (termDays term) r.student_id
  exact h

theorem lmsBlock_clicks_sum (d : Draws) (r : Student) (term : Term) :
    ((lmsBlock d r term).map (fun x => x.clicks)).sum = lmsTotal d r term := by
  rw [lmsBlock, List.map_map, lmsTotal]
  rfl

theorem lmsBlock_filter_between (d : Draws) (r : Student) (term t : Term) :
    (lmsBlock d r term).filter (fun x => decide (dateLe (term_dates t).1 x.activity_date ∧
        dateLe x.activity_date (term_dates t).2)) =
      if term = t then lmsBlock d r term else [] := by
  by_cases h : term = t
  · subst h
    rw [if_pos rfl, List.filter_eq_self]
    intro x hx
    simp only [lmsBlock, List.mem_map] at hx
    rcases hx with ⟨dt, hdt, rfl⟩
    simp only [decide_eq_true_eq]
    exact termDays_between term dt hdt
  · rw [if_neg h, List.filter_eq_nil_iff]
    intro x hx
    simp only [lmsBlock, List.mem_map] at hx
    rcases hx with ⟨dt, hdt, rfl⟩
    simp only [decide_eq_true_eq, not_and]
    intro h1 h2
    exact h (between_termDays_unique term t dt hdt h1 h2).symm

/-- The students that have term `t` in their resolved term list, in roster
order (= the group keys of the loader's per-term groupby). -/
def studentsWith (students : List Student) (t : Term) : List Student :=
  students.filter (fun s => decide (t ∈ termsOf s))

theorem studentsWith_sid_nodup (students : List Student)
    (hids : (students.map (fun s => s.student_id)).Nodup) (t : Term) :
    ((studentsWith students t).map (fun s => s.student_id)).Nodup :=
  List.Nodup.sublist (List.Sublist.map _ (List.filter_sublist students)) hids

theorem lms_filter_between (students : List Student) (d : Draws) (t : Term) :
    (make_lms_activity students d).filter
      (fun x => decide (dateLe (term_dates t).1 x.activity_date ∧
        dateLe x.activity_date (term_dates t).2)) =
      (studentsWith students t).flatMap (fun s => lmsBlock d s t) := by
  rw [make_lms_activity, List.filter_flatMap]
  have hinner : ∀ s ∈ students,
      ((termsOf s).flatMap (fun term => lmsBlock d s term)).filter
        (fun x => decide (dateLe (term_dates t).1 x.activity_date ∧
          dateLe x.activity_date (term_dates t).2)) =
      if t ∈ termsOf s then lmsBlock d s t else [] := by
    intro s _
    rw [List.filter_flatMap]
    have h1 : ∀ term ∈ termsOf s,
        (lmsBlock d s term).filter
          (fun x => decide (dateLe (term_dates t).1 x.activity_date ∧
            dateLe x.activity_date (term_dates t).2)) =
        if term = t then lmsBlock d s term else [] :=
      fun term _ => lmsBlock_filter_between d s term t
    rw [flatMap_congr_mem _ _ _ h1]
    exact flatMap_if_eq_mem (termsOf s) (all_terms_nodup _ _ _) t (fun tt => lmsBlock d s tt)
  rw [flatMap_congr_mem _ _ _ hinner]
  exact flatMap_ite_filter students (fun s => t ∈ termsOf s) (fun s => lmsBlock d s t)

/-- The globally distinct terms driving the loader's `lms_term` loop
(`pd.unique(att_term["term"])`). -/
def dedupTerms (students : List Student) : List Term :=
  uniqFirst ((pairsSt students).map (fun q => q.2))

/-- The (student, term) pairs in the order the loader's `lms_term` loop emits
them: term-major, then roster order. -/
def lmsPairs (students : List Student) : List (Student × Term) :=
  (dedupTerms students).flatMap (fun t =>
    (studentsWith students t).map (fun s => (s, t)))

theorem mem_dedupTerms (students : List Student) (t : Term) :
    t ∈ dedupTerms students ↔ ∃ s ∈ students, t ∈ termsOf s := by
  rw [dedupTerms, mem_uniqFirst]
  simp only [List.mem_map]
  constructor
  · rintro ⟨q, hq, rfl⟩
    rcases (mem_pairsSt students q).1 hq with ⟨h1, h2⟩
    exact ⟨q.1, h1, h2⟩
  · rintro ⟨s, hs, ht⟩
    exact ⟨(s, t), (mem_pairsSt students (s, t)).2 ⟨hs, ht⟩, rfl⟩

theorem mem_lmsPairs (students : List Student) (q : Student × Term) :
    q ∈ lmsPairs students ↔ q.1 ∈ students ∧ q.2 ∈ termsOf q.1 := by
  rcases q with ⟨s, t⟩
  simp only [lmsPairs, List.mem_flatMap, List.mem_map]
  constructor
  · rintro ⟨t2, ht2, s2, hs2, h⟩
    rcases Prod.mk.injEq .. ▸ h with ⟨h1, h2⟩
    subst h1; subst h2
    rw [studentsWith, List.mem_filter] at hs2
    exact ⟨hs2.1, by simpa using hs2.2⟩
  · rintro ⟨hs, ht⟩
    refine ⟨t, (mem_dedupTerms students t).2 ⟨s, hs, ht⟩, s, ?_, rfl⟩
    rw [studentsWith, List.mem_filter]
    exact ⟨hs, by simpa using ht⟩

theorem lms_term_code_eq (students : List Student) (d : Draws)
    (hids : (students.map (fun s => s.student_id)).Nodup) :
    lms_term_code (attendance_term (make_attendance students d))
        (make_lms_activity students d) =
      (lmsPairs students).map
        (fun q => ⟨q.1.student_id, q.2, lmsTotal d q.1 q.2⟩) := by
  unfold lms_term_code
  rw [attendance_term_eq students d hids, List.map_map]
  have hterm : ((fun r : AttTermRow => r.term) ∘ fun q : Student × Term =>
      attTermRowOf d q.1 q.2) = fun q : Student × Term => q.2 := rfl
  rw [hterm]
  rw [lmsPairs, List.map_flatMap]
  refine flatMap_congr_mem _ _ _ ?_
  intro t _
  dsimp only
  rw [lms_filter_between students d t]
  have hsids : ((studentsWith students t).flatMap (fun s => lmsBlock d s t)).map
      (fun r => r.student_id) =
      (studentsWith students t).flatMap
        (fun s => List.replicate ((fun _ => (termDays t).length) s)
          ((fun s : Student => s.student_id) s)) := by
    rw [List.map_flatMap]
    simp only [lmsBlock_map_sid]
  rw [hsids, uniqFirst_flatMap_blocks (studentsWith students t)
    (fun s => s.student_id) (fun _ => (termDays t).length)
    (studentsWith_sid_nodup students hids t)]
  have hfid : (studentsWith students t).filter
      (fun s => decide ((fun _ => (termDays t).length) s ≠ 0)) =
      studentsWith students t := by
    rw [List.filter_eq_self]
    intro s _
    simp only [decide_eq_true_eq]
    intro hlen
    exact termDays_ne_nil t (List.length_eq_zero.1 hlen)
  rw [hfid, List.map_map, List.map_map]
  refine List.map_congr_left ?_
  intro s hs
  have hown : ∀ x ∈ studentsWith students t, ∀ r ∈ lmsBlock d x t,
      r.student_id = x.student_id := by
    intro x _ r hr
    simp only [lmsBlock, List.mem_map] at hr
    rcases hr with ⟨dt, _, rfl⟩
    rfl
  have hfilter : ((studentsWith students t).flatMap (fun s2 => lmsBlock d s2 t)).filter
      (fun r => decide (r.student_id = s.student_id)) = lmsBlock d s t :=
    filter_key_flatMap (studentsWith students t) (fun s2 => lmsBlock d s2 t)
      (fun r => r.student_id) (fun s2 => s2.student_id) hown s
      (studentsWith_sid_nodup students hids t) hs
  simp only [Function.comp_def, hfilter, lmsBlock_clicks_sum]

theorem filter_conj_comm {ρ : Type} (l : List ρ) (p q : ρ → Prop)
    [DecidablePred p] [DecidablePred q] :
    l.filter (fun r => decide (p r ∧ q r)) =
      (l.filter (fun r => decide (q r))).filter (fun r => decide (p r)) := by
  rw [List.filter_filter]
  refine List.filter_congr ?_
  intro r _
  simp [decide_eq_true_eq, Bool.and_comm]

theorem lms_term_spec_eq (students : List Student) (d : Draws)
    (hids : (students.map (fun s => s.student_id)).Nodup) :
    lms_term_spec students (make_lms_activity students d) =
      (pairsSt students).map
        (fun q => ⟨q.1.student_id, q.2, lmsTotal d q.1 q.2⟩) := by
  rw [lms_term_spec, pairsSt_map]
  refine flatMap_congr_mem _ _ _ ?_
  intro s hs
  refine List.map_congr_left ?_
  intro t ht
  simp only [LmsTermRow.mk.injEq, true_and]
  have hsplit : (make_lms_activity students d).filter
      (fun r => decide (r.student_id = s.student_id ∧
        dateLe (term_dates t).1 r.activity_date ∧
        dateLe r.activity_date (term_dates t).2)) =
      ((make_lms_activity students d).filter
        (fun r => decide (dateLe (term_dates t).1 r.activity_date ∧
          dateLe r.activity_date (term_dates t).2))).filter
        (fun r => decide (r.student_id = s.student_id)) :=
    filter_conj_comm _ _ _
  rw [hsplit, lms_filter_between students d t]
  have hown : ∀ x ∈ studentsWith students t, ∀ r ∈ lmsBlock d x t,
      r.student_id = x.student_id := by
    intro x _ r hr
    simp only [lmsBlock, List.mem_map] at hr
    rcases hr with ⟨dt, _, rfl⟩
    rfl
  have hsW : s ∈ studentsWith students t := by
    rw [studentsWith, List.mem_filter]
    exact ⟨hs, by simpa using ht⟩
  have hfilter : ((studentsWith students t).flatMap (fun s2 => lmsBlock d s2 t)).filter
      (fun r => decide (r.student_id = s.student_id)) = lmsBlock d s t :=
    filter_key_flatMap (studentsWith students t) (fun s2 => lmsBlock d s2 t)
      (fun r => r.student_id) (fun s2 => s2.student_id) hown s
      (studentsWith_sid_nodup students hids t) hsW
  rw [hfilter, lmsBlock_clicks_sum]

theorem countP_key_nodup {α κ : Type} [DecidableEq κ] (xs : List α) (key : α → κ)
    (hnd : (xs.map key).Nodup) (k : κ) :
    xs.countP (fun x => decide (key x = k)) = if k ∈ xs.map key then 1 else 0 := by
  induction xs with
  | nil => simp
  | cons x xs ih =>
    have hnd2 : (xs.map key).Nodup := (List.nodup_cons.1 (by simpa using hnd)).2
    have hx : key x ∉ xs.map key := (List.nodup_cons.1 (by simpa using hnd)).1
    by_cases hk : key x = k
    · have hm : k ∉ List.map key xs := by rw [← hk]; exact hx
      rw [List.countP_cons, ih hnd2, if_neg hm,
        if_pos (show decide (key x = k) = true by simpa using hk),
        if_pos (show k ∈ List.map key (x :: xs) by simp [← hk])]
    · have hiff : (k ∈ List.map key (x :: xs)) ↔ k ∈ List.map key xs := by
        simp only [List.map_cons, List.mem_cons]
        constructor
        · rintro (h | h)
          · exact absurd h.symm hk
          · exact h
        · exact Or.inr
      rw [List.countP_cons, ih hnd2,
        if_neg (show ¬decide (key x = k) = true by simpa using hk)]
      by_cases hm : k ∈ List.map key xs
      · rw [if_pos hm, if_pos (hiff.2 hm)]
      · rw [if_neg hm, if_neg (fun h => hm (hiff.1 h))]

theorem filter_map_keyed_length {α κ ρ : Type} [DecidableEq κ] (xs : List α)
    (key : α → κ) (rowfn : α → ρ) (keyr : ρ → κ)
    (hkr : ∀ x, keyr (rowfn x) = key x) (hnd : (xs.map key).Nodup) (k : κ) :
    ((xs.map rowfn).filter (fun r => decide (keyr r = k))).length =
      if k ∈ xs.map key then 1 else 0 := by
  rw [← List.countP_eq_length_filter, List.countP_map]
  have h : ((fun r => decide (keyr r = k)) ∘ rowfn) = fun x => decide (key x = k) := by
    funext x
    simp [Function.comp_def, hkr x]
  rw [h]
  exact countP_key_nodup xs key hnd k

theorem sid_term_mem_pairs (students : List Student)
    (hids : (students.map (fun s => s.student_id)).Nodup)
    (s : Student) (hs : s ∈ students) (t : Term) :
    (s.student_id, t) ∈ (pairsSt students).map (fun q => (q.1.student_id, q.2)) ↔
      t ∈ termsOf s := by
  rw [pairsSt_sid_pairs]
  simp only [List.mem_flatMap, List.mem_map]
  constructor
  · rintro ⟨s2, hs2, t2, ht2, h⟩
    obtain ⟨h1, h2⟩ := Prod.mk.injEq .. ▸ h
    have hss : s2 = s := List.inj_on_of_nodup_map hids hs2 hs h1
    rw [hss] at ht2
    rw [← h2]
    exact ht2
  · intro ht
    exact ⟨s, hs, t, ht, rfl⟩

theorem lmsPairs_keys_nodup (students : List Student)
    (hids : (students.map (fun s => s.student_id)).Nodup) :
    ((lmsPairs students).map (fun q => (q.1.student_id, q.2))).Nodup := by
  rw [lmsPairs, List.map_flatMap]
  rw [List.nodup_flatMap]
  constructor
  · intro t _
    rw [List.map_map]
    refine List.Nodup.map_on ?_
      (List.Nodup.of_map _ (studentsWith_sid_nodup students hids t))
    intro s1 h1 s2 h2 h
    obtain ⟨hsid, _⟩ := Prod.mk.injEq .. ▸ h
    exact List.inj_on_of_nodup_map (studentsWith_sid_nodup students hids t) h1 h2 hsid
  · have hnd : (dedupTerms students).Nodup := nodup_uniqFirst _
    refine hnd.imp_of_mem ?_
    intro t1 t2 _ _ hne p hp1 hp2
    simp only [List.map_map, List.mem_map] at hp1 hp2
    rcases hp1 with ⟨s1, _, rfl⟩
    rcases hp2 with ⟨s2, _, hp⟩
    have := Prod.mk.injEq .. ▸ hp
    exact hne this.2.symm

def dfltStudent : Student :=
  { student_id := 0, full_name := "", program := "", intake := ⟨0, IntakeMonth.Sep⟩,
    age := 0, gender := "", enrol_date := ⟨0, 1, 1⟩ }

/-- C6: the loader's `lms_term` (iterate over the globally distinct terms and
date-filter the whole activity table) equals the spec's per-student
computation: the tables agree row for row, the code table has one row per
(student_id, term) key, the per-student table has exactly one row per
(student, resolved term), and every daily activity row falls in the date
range of exactly one term of its own student's resolved list. -/
theorem C6_lms_term_refinement (n : Nat) (y0 y1 : Int) (d : Draws) :
    (∀ row : LmsTermRow,
        row ∈ lms_term_code
            (attendance_term (make_attendance (make_students n y0 y1 d) d))
            (make_lms_activity (make_students n y0 y1 d) d) ↔
        row ∈ lms_term_spec (make_students n y0 y1 d)
            (make_lms_activity (make_students n y0 y1 d) d))
    ∧ ((lms_term_code
          (attendance_term (make_attendance (make_students n y0 y1 d) d))
          (make_lms_activity (make_students n y0 y1 d) d)).map
        (fun r => (r.student_id, r.term))).Nodup
    ∧ (∀ s ∈ make_students n y0 y1 d, ∀ t : Term,
        ((lms_term_spec (make_students n y0 y1 d)
            (make_lms_activity (make_students n y0 y1 d) d)).filter
          (fun r => decide ((r.student_id, r.term) = (s.student_id, t)))).length =
        if t ∈ termsOf s then 1 else 0)
    ∧ (∀ s ∈ make_students n y0 y1 d,
        ∀ r ∈ make_lms_activity (make_students n y0 y1 d) d,
          r.student_id = s.student_id →
          ∃! t : Term, t ∈ termsOf s ∧ dateLe (term_dates t).1 r.activity_date ∧
            dateLe r.activity_date (term_dates t).2) := by
  have hids := make_students_sid_nodup n y0 y1 d
  have hcode := lms_term_code_eq (make_students n y0 y1 d) d hids
  have hspec := lms_term_spec_eq (make_students n y0 y1 d) d hids
  refine ⟨?_, ?_, ?_, ?_⟩
  · intro row
    rw [hcode, hspec]
    simp only [List.mem_map]
    constructor
    · rintro ⟨q, hq, rfl⟩
      exact ⟨q, (mem_pairsSt _ q).2 ((mem_lmsPairs _ q).1 hq), rfl⟩
    · rintro ⟨q, hq, rfl⟩
      exact ⟨q, (mem_lmsPairs _ q).2 ((mem_pairsSt _ q).1 hq), rfl⟩
  · rw [hcode]
    have h := lmsPairs_keys_nodup (make_students n y0 y1 d) hids
    rw [List.map_map] at *
    exact h
  · intro s hs t
    rw [hspec]
    rw [filter_map_keyed_length (pairsSt (make_students n y0 y1 d))
      (fun q => (q.1.student_id, q.2))
      (fun q => (⟨q.1.student_id, q.2, lmsTotal d q.1 q.2⟩ : LmsTermRow))
      (fun r : LmsTermRow => (r.student_id, r.term)) (fun q => rfl)
      (pairsSt_keys_nodup _ hids) (s.student_id, t)]
    by_cases hm : t ∈ termsOf s
    · rw [if_pos ((sid_term_mem_pairs _ hids s hs t).2 hm), if_pos hm]
    · rw [if_neg (fun h => hm ((sid_term_mem_pairs _ hids s hs t).1 h)), if_neg hm]
  · intro s hs r hr hsid
    rw [make_lms_activity] at hr
    rcases List.mem_flatMap.1 hr with ⟨s2, hs2, hr2⟩
    rcases List.mem_flatMap.1 hr2 with ⟨t2, ht2, hr3⟩
    simp only [lmsBlock, List.mem_map] at hr3
    rcases hr3 with ⟨dt, hdt, rfl⟩
    have hss : s2 = s := List.inj_on_of_nodup_map hids hs2 hs hsid
    subst hss
    refine ⟨t2, ⟨ht2, termDays_between t2 dt hdt⟩, ?_⟩
    rintro t3 ⟨_, hb1, hb2⟩
    exact between_termDays_unique t2 t3 dt hdt hb1 hb2

/-- Witness instantiating `C6_lms_term_refinement` at a concrete run. -/
theorem C6_lms_term_refinement_witness :
    ((lms_term_spec (make_students 1 2012 2025 d0)
        (make_lms_activity (make_students 1 2012 2025 d0) d0)).filter
      (fun r => decide ((r.student_id, r.term) =
        (((make_students 1 2012 2025 d0).getD 0 dfltStudent).student_id,
          (⟨2019, Sem.Fall⟩ : Term))))).length =
    if (⟨2019, Sem.Fall⟩ : Term) ∈ termsOf ((make_students 1 2012 2025 d0).getD 0 dfltStudent)
    then 1 else 0 :=
  (C6_lms_term_refinement 1 2012 2025 d0).2.2.1
    ((make_students 1 2012 2025 d0).getD 0 dfltStudent) (by decide) ⟨2019, Sem.Fall⟩

/-! ## The three-way merge in closed form -/

theorem filter_map_keyed_singleton {α κ ρ : Type} [DecidableEq κ] (xs : List α)
    (key : α → κ) (rowfn : α → ρ) (keyr : ρ → κ)
    (hkr : ∀ x, keyr (rowfn x) = key x) (hnd : (xs.map key).Nodup)
    (x0 : α) (hx0 : x0 ∈ xs) :
    (xs.map rowfn).filter (fun r => decide (keyr r = key x0)) = [rowfn x0] := by
  rw [map_eq_flatMap_singleton]
  exact filter_key_flatMap xs (fun x => [rowfn x]) keyr key
    (by
      intro x _ r hr
      simp only [List.mem_singleton] at hr
      subst hr
      exact hkr x)
    x0 hnd hx0

theorem make_assessments_eq (students : List Student) (d : Draws) :
    make_assessments students d =
      (pairsSt students).map (fun q => assessRowOf d q.1 q.2) := by
  rw [make_assessments, pairsSt_map]

def m1RowOf (d : Draws) (s : Student) (t : Term) : M1Row :=
  { student_id := s.student_id, full_name := s.full_name, program := s.program,
    intake := s.intake, age := s.age, gender := s.gender, enrol_date := s.enrol_date,
    term := t, total_sessions := 60, attended := (attTermRowOf d s t).attended }

def m2RowOf (d : Draws) (s : Student) (t : Term) : M2Row :=
  { student_id := s.student_id, full_name := s.full_name, program := s.program,
    intake := s.intake, age := s.age, gender := s.gender, enrol_date := s.enrol_date,
    term := t, total_sessions := 60, attended := (attTermRowOf d s t).attended,
    clicks := lmsTotal d s t }

/-- The row of the merged frame for one (student, term). -/
def joinedRowOf (d : Draws) (s : Student) (t : Term) : JoinedRow :=
  { student_id := s.student_id, full_name := s.full_name, program := s.program,
    intake := s.intake, age := s.age, gender := s.gender, enrol_date := s.enrol_date,
    term := t, total_sessions := 60, attended := (attTermRowOf d s t).attended,
    clicks := lmsTotal d s t,
    midterm := (assessRowOf d s t).midterm, final := (assessRowOf d s t).final,
    late_submissions := (assessRowOf d s t).late_submissions }

theorem merge1_eq (students : List Student) (d : Draws)
    (hids : (students.map (fun s => s.student_id)).Nodup) :
    merge1 students (attendance_term (make_attendance students d)) =
      (pairsSt students).map (fun q => m1RowOf d q.1 q.2) := by
  rw [merge1, attendance_term_eq students d hids, pairsSt_map, pairsSt_map]
  refine flatMap_congr_mem _ _ _ ?_
  intro s hs
  have hown : ∀ x ∈ students, ∀ r ∈ (termsOf x).map (fun t => attTermRowOf d x t),
      r.student_id = x.student_id := by
    intro x _ r hr
    simp only [List.mem_map] at hr
    rcases hr with ⟨t, _, rfl⟩
    rfl
  have hfilter : (students.flatMap (fun s2 => (termsOf s2).map (fun t => attTermRowOf d s2 t))).filter
      (fun a => decide (a.student_id = s.student_id)) =
      (termsOf s).map (fun t => attTermRowOf d s t) :=
    filter_key_flatMap students (fun s2 => (termsOf s2).map (fun t => attTermRowOf d s2 t))
      (fun r => r.student_id) (fun s2 => s2.student_id) hown s hids hs
  rw [hfilter, List.map_map]
  rfl

theorem merge2_eq (students : List Student) (d : Draws)
    (hids : (students.map (fun s => s.student_id)).Nodup) :
    merge2 ((pairsSt students).map (fun q => m1RowOf d q.1 q.2))
        ((lmsPairs students).map
          (fun q => ⟨q.1.student_id, q.2, lmsTotal d q.1 q.2⟩)) =
      (pairsSt students).map (fun q => m2RowOf d q.1 q.2) := by
  rw [merge2, List.flatMap_map]
  refine Eq.trans (flatMap_congr_mem _ _ (fun q => [m2RowOf d q.1 q.2]) ?_)
    (map_eq_flatMap_singleton (pairsSt students) (fun q => m2RowOf d q.1 q.2)).symm
  intro q hq
  have hpred : ((lmsPairs students).map
      (fun q2 => (⟨q2.1.student_id, q2.2, lmsTotal d q2.1 q2.2⟩ : LmsTermRow))).filter
        (fun l => decide (l.student_id = (m1RowOf d q.1 q.2).student_id ∧
          l.term = (m1RowOf d q.1 q.2).term)) =
      ((lmsPairs students).map
        (fun q2 => (⟨q2.1.student_id, q2.2, lmsTotal d q2.1 q2.2⟩ : LmsTermRow))).filter
        (fun l => decide ((l.student_id, l.term) = (q.1.student_id, q.2))) := by
    refine List.filter_congr ?_
    intro r _
    simp [Prod.ext_iff, m1RowOf]
  rw [hpred]
  have hsingle : ((lmsPairs students).map
      (fun q2 => (⟨q2.1.student_id, q2.2, lmsTotal d q2.1 q2.2⟩ : LmsTermRow))).filter
        (fun l => decide ((l.student_id, l.term) = (q.1.student_id, q.2))) =
      [⟨q.1.student_id, q.2, lmsTotal d q.1 q.2⟩] :=
    filter_map_keyed_singleton (lmsPairs students)
      (fun q2 => (q2.1.student_id, q2.2))
      (fun q2 => (⟨q2.1.student_id, q2.2, lmsTotal d q2.1 q2.2⟩ : LmsTermRow))
      (fun l : LmsTermRow => (l.student_id, l.term)) (fun q2 => rfl)
      (lmsPairs_keys_nodup students hids) q
      ((mem_lmsPairs students q).2 ((mem_pairsSt students q).1 hq))
  rw [hsingle]
  rfl

theorem merge3_eq (students : List Student) (d : Draws)
    (hids : (students.map (fun s => s.student_id)).Nodup) :
    merge3 ((pairsSt students).map (fun q => m2RowOf d q.1 q.2))
        (make_assessments students d) =
      (pairsSt students).map (fun q => joinedRowOf d q.1 q.2) := by
  rw [merge3, make_assessments_eq, List.flatMap_map]
  refine Eq.trans (flatMap_congr_mem _ _ (fun q => [joinedRowOf d q.1 q.2]) ?_)
    (map_eq_flatMap_singleton (pairsSt students) (fun q => joinedRowOf d q.1 q.2)).symm
  intro q hq
  have hpred : ((pairsSt students).map (fun q2 => assessRowOf d q2.1 q2.2)).filter
      (fun a => decide (a.student_id = (m2RowOf d q.1 q.2).student_id ∧
        a.term = (m2RowOf d q.1 q.2).term)) =
      ((pairsSt students).map (fun q2 => assessRowOf d q2.1 q2.2)).filter
        (fun a => decide ((a.student_id, a.term) = (q.1.student_id, q.2))) := by
    refine List.filter_congr ?_
    intro r _
    simp [Prod.ext_iff, m2RowOf]
  rw [hpred]
  have hsingle : ((pairsSt students).map (fun q2 => assessRowOf d q2.1 q2.2)).filter
      (fun a => decide ((a.student_id, a.term) = (q.1.student_id, q.2))) =
      [assessRowOf d q.1 q.2] :=
    filter_map_keyed_singleton (pairsSt students)
      (fun q2 => (q2.1.student_id, q2.2))
      (fun q2 => assessRowOf d q2.1 q2.2)
      (fun a : AssessRow => (a.student_id, a.term)) (fun q2 => rfl)
      (pairsSt_keys_nodup students hids) q hq
  rw [hsingle]
  rfl

/-- The merged frame of a run, in closed form: exactly one row per
(student, resolved term). -/
theorem joinedOf_eq (n : Nat) (y0 y1 : Int) (d : Draws) :
    joinedOf n y0 y1 d =
      (pairsSt (make_students n y0 y1 d)).map (fun q => joinedRowOf d q.1 q.2) := by
  have hids := make_students_sid_nodup n y0 y1 d
  rw [joinedOf, rosterOf]
  rw [merge1_eq _ d hids, lms_term_code_eq _ d hids, merge2_eq _ d hids,
    merge3_eq _ d hids]

/-! ## C1: row counts of the analytic table -/

theorem termsOf_length (s : Student) :
    (termsOf s).length = 2 * durationOf PROGRAM_DURATION s.program :=
  all_terms_length s.intake s.program PROGRAM_DURATION

theorem length_filter_range_getD {α : Type} (j : List α) (p : α → Bool) (dflt : α) :
    ((List.range j.length).filter (fun i => p (j.getD i dflt))).length =
      (j.filter p).length := by
  induction j with
  | nil => simp
  | cons a l ih =>
    have hrange : List.range (a :: l).length = 0 :: (List.range l.length).map Nat.succ := by
      rw [List.length_cons, List.range_succ_eq_map]
    rw [hrange, List.filter_cons]
    have hmap : ((List.range l.length).map Nat.succ).filter
        (fun i => p ((a :: l).getD i dflt)) =
        ((List.range l.length).filter (fun i => p (l.getD i dflt))).map Nat.succ := by
      rw [List.filter_map]
      congr 1
    by_cases hp : p a
    · rw [if_pos (by simpa using hp)]
      simp only [List.filter_cons, if_pos (by simpa using hp : p a = true)]
      rw [List.length_cons, hmap, List.length_map, ih]
      rfl
    · rw [if_neg (by simpa using hp)]
      simp only [List.filter_cons]
      rw [if_neg (by simpa using hp)]
      rw [hmap, List.length_map, ih]

theorem analytic_filter_length (j : List JoinedRow) (p : AnalyticRow → Bool)
    (p2 : JoinedRow → Bool)
    (hp : ∀ i, i < j.length → p (analyticBuild j i) = p2 (j.getD i dfltJoined)) :
    ((analytic_rows j).filter p).length = (j.filter p2).length := by
  rw [analytic_rows, ← List.countP_eq_length_filter, List.countP_map,
    List.countP_eq_length_filter]
  rw [← length_filter_range_getD j p2 dfltJoined]
  congr 1
  refine List.filter_congr ?_
  intro i hi
  simp only [List.mem_range] at hi
  simp only [Function.comp_def, hp i hi]

/-- C1: for every generated student, the persisted `analytic_student_term`
table has exactly `2 × program_duration(program)` rows for that student —
exactly one row for each term of the student's resolved term sequence, each
(student_id, term) pair appearing exactly once. -/
theorem C1_rows_per_student (n : Nat) (y0 y1 : Int) (d : Draws) :
    ∀ s ∈ make_students n y0 y1 d,
      ((pipeline_analytic n y0 y1 d).filter
        (fun r => decide (r.student_id = s.student_id))).length =
        2 * durationOf PROGRAM_DURATION s.program
      ∧ ∀ t : Term,
        ((pipeline_analytic n y0 y1 d).filter
          (fun r => decide ((r.student_id, r.term) = (s.student_id, t)))).length =
          if t ∈ termsOf s then 1 else 0 := by
  intro s hs
  have hids := make_students_sid_nodup n y0 y1 d
  have hj := joinedOf_eq n y0 y1 d
  constructor
  · rw [pipeline_analytic,
      analytic_filter_length _ _ (fun r : JoinedRow => decide (r.student_id = s.student_id))
        (fun i hi => rfl),
      hj, List.filter_map, List.length_map]
    have hfun : ((fun r : JoinedRow => decide (r.student_id = s.student_id)) ∘
        fun q : Student × Term => joinedRowOf d q.1 q.2) =
        fun q : Student × Term => decide (q.1.student_id = s.student_id) := rfl
    rw [hfun]
    have hfil : (pairsSt (make_students n y0 y1 d)).filter
        (fun q => decide (q.1.student_id = s.student_id)) =
        (termsOf s).map (fun t => (s, t)) := by
      rw [pairsSt]
      exact filter_key_flatMap _ (fun s2 => (termsOf s2).map (fun t => (s2, t)))
        (fun q => q.1.student_id) (fun s2 => s2.student_id)
        (by
          intro x _ r hr
          simp only [List.mem_map] at hr
          rcases hr with ⟨t, _, rfl⟩
          rfl)
        s hids hs
    rw [hfil, List.length_map, termsOf_length]
  · intro t
    rw [pipeline_analytic,
      analytic_filter_length _ _
        (fun r : JoinedRow => decide ((r.student_id, r.term) = (s.student_id, t)))
        (fun i hi => rfl),
      hj]
    rw [filter_map_keyed_length (pairsSt (make_students n y0 y1 d))
      (fun q => (q.1.student_id, q.2))
      (fun q => joinedRowOf d q.1 q.2)
      (fun r : JoinedRow => (r.student_id, r.term)) (fun q => rfl)
      (pairsSt_keys_nodup _ hids) (s.student_id, t)]
    by_cases hm : t ∈ termsOf s
    · rw [if_pos ((sid_term_mem_pairs _ hids s hs t).2 hm), if_pos hm]
    · rw [if_neg (fun h => hm ((sid_term_mem_pairs _ hids s hs t).1 h)), if_neg hm]

/-- Witness instantiating `C1_rows_per_student` at a concrete run. -/
theorem C1_rows_per_student_witness :
    ((pipeline_analytic 1 2012 2025 d0).filter
      (fun r => decide (r.student_id =
        ((make_students 1 2012 2025 d0).getD 0 dfltStudent).student_id))).length =
      2 * durationOf PROGRAM_DURATION
        ((make_students 1 2012 2025 d0).getD 0 dfltStudent).program :=
  (C1_rows_per_student 1 2012 2025 d0
    ((make_students 1 2012 2025 d0).getD 0 dfltStudent) (by decide)).1

/-! ## C9: attendance rollup totals and attendance_rate bounds -/

theorem attended_le_sixty (d : Draws) (s : Student) (t : Term)
    (hb : ∀ (sid : Nat) (tt : Term) (w : Nat) (p : ℚ), d.binomDraw sid tt w p ≤ 5) :
    (attTermRowOf d s t).attended ≤ 60 := by
  rw [attTermRowOf]
  refine le_trans (List.sum_le_card_nsmul _ 5 ?_) ?_
  · intro x hx
    simp only [List.mem_map, List.mem_range] at hx
    rcases hx with ⟨w, _, rfl⟩
    exact hb _ _ _ _
  · simp

/-- C9: every `attendance_term` group of a run has `total_sessions = 60`
(12 weeks × 5 sessions, hence never zero) and `attended ≤ 60`, so the
`attended / total_sessions` division is defined and every persisted analytic
row satisfies `0 ≤ attendance_rate ≤ 1`.  The hypothesis is numpy's
guarantee that `rng.binomial(5, p) ≤ 5`. -/
theorem C9_attendance_bounds (n : Nat) (y0 y1 : Int) (d : Draws)
    (hb : ∀ (sid : Nat) (tt : Term) (w : Nat) (p : ℚ), d.binomDraw sid tt w p ≤ 5) :
    (∀ g ∈ attendance_term (make_attendance (make_students n y0 y1 d) d),
        g.total_sessions = 60 ∧ g.attended ≤ g.total_sessions)
    ∧ ∀ row ∈ pipeline_analytic n y0 y1 d,
        0 ≤ row.attendance_rate ∧ row.attendance_rate ≤ 1 := by
  have hids := make_students_sid_nodup n y0 y1 d
  constructor
  · intro g hg
    rw [attendance_term_eq _ d hids] at hg
    simp only [List.mem_map] at hg
    rcases hg with ⟨q, _, rfl⟩
    exact ⟨rfl, attended_le_sixty d q.1 q.2 hb⟩
  · intro row hrow
    rcases (mem_analytic_rows (joinedOf n y0 y1 d) row).1 hrow with ⟨i, hi, rfl⟩
    have hmem : (joinedOf n y0 y1 d).getD i dfltJoined ∈ joinedOf n y0 y1 d := by
      rw [List.getD_eq_getElem _ _ hi]
      exact List.getElem_mem hi
    rw [joinedOf_eq n y0 y1 d] at hmem
    simp only [List.mem_map] at hmem
    rcases hmem with ⟨q, _, hqe⟩
    have hrate : (analyticBuild (joinedOf n y0 y1 d) i).attendance_rate =
        (((joinedOf n y0 y1 d).getD i dfltJoined).attended : ℚ) /
          (((joinedOf n y0 y1 d).getD i dfltJoined).total_sessions : ℚ) := rfl
    rw [hrate, joinedOf_eq n y0 y1 d, ← hqe]
    have hts : (joinedRowOf d q.1 q.2).total_sessions = 60 := rfl
    have hat : (joinedRowOf d q.1 q.2).attended ≤ 60 := attended_le_sixty d q.1 q.2 hb
    rw [hts]
    constructor
    · positivity
    · rw [div_le_one (by norm_num : (0:ℚ) < ((60:Nat):ℚ))]
      exact_mod_cast hat

set_option maxRecDepth 1000000 in
/-- Witness instantiating `C9_attendance_bounds` at a concrete oracle, run and
row. -/
theorem C9_attendance_bounds_witness :
    ((attendance_term (make_attendance (make_students 1 2012 2025 d0) d0)).getD 0
        ⟨0, ⟨2012, Sem.Fall⟩, 0, 0⟩).total_sessions = 60
    ∧ ((attendance_term (make_attendance (make_students 1 2012 2025 d0) d0)).getD 0
        ⟨0, ⟨2012, Sem.Fall⟩, 0, 0⟩).attended ≤
      ((attendance_term (make_attendance (make_students 1 2012 2025 d0) d0)).getD 0
        ⟨0, ⟨2012, Sem.Fall⟩, 0, 0⟩).total_sessions :=
  (C9_attendance_bounds 1 2012 2025 d0 (fun _ _ _ _ => by norm_num [d0])).1 _
    (by decide)

/-! ## C4: activity_decile — whole-population stable ranking, decile buckets -/

theorem length_filter_range_card (N : Nat) (p : Nat → Prop) [DecidablePred p] :
    ((List.range N).filter (fun i => decide (p i))).length =
      ((Finset.range N).filter p).card := rfl

/-- The strict order on rows used by `rank(method="first")`: smaller clicks
first, ties broken by position. -/
def keyLt (cl : List Nat) (j i : Nat) : Prop :=
  cl.getD j 0 < cl.getD i 0 ∨ (cl.getD j 0 = cl.getD i 0 ∧ j < i)

instance (cl : List Nat) (j i : Nat) : Decidable (keyLt cl j i) := by
  unfold keyLt; exact inferInstance

theorem rankFirst_eq_card (cl : List Nat) (i : Nat) :
    rankFirst cl i = 1 + ((Finset.range cl.length).filter (fun j => keyLt cl j i)).card :=
  rfl

theorem keyLt_irrefl (cl : List Nat) (i : Nat) : ¬ keyLt cl i i := by
  unfold keyLt; omega

theorem keyLt_trans (cl : List Nat) {k i j : Nat} (h1 : keyLt cl k i)
    (h2 : keyLt cl i j) : keyLt cl k j := by
  unfold keyLt at *; omega

theorem keyLt_total (cl : List Nat) {i j : Nat} (h : i ≠ j) :
    keyLt cl i j ∨ keyLt cl j i := by
  unfold keyLt; omega

theorem rankFirst_lt_of_keyLt (cl : List Nat) {i j : Nat} (hi : i < cl.length)
    (hk : keyLt cl i j) : rankFirst cl i < rankFirst cl j := by
  rw [rankFirst_eq_card, rankFirst_eq_card]
  have hsub : insert i ((Finset.range cl.length).filter (fun k => keyLt cl k i)) ⊆
      (Finset.range cl.length).filter (fun k => keyLt cl k j) := by
    intro k hk2
    rcases Finset.mem_insert.1 hk2 with rfl | hk2
    · exact Finset.mem_filter.2 ⟨Finset.mem_range.2 hi, hk⟩
    · rcases Finset.mem_filter.1 hk2 with ⟨hk3, hk4⟩
      exact Finset.mem_filter.2 ⟨hk3, keyLt_trans cl hk4 hk⟩
  have hnotmem : i ∉ (Finset.range cl.length).filter (fun k => keyLt cl k i) := by
    intro hmem
    exact keyLt_irrefl cl i (Finset.mem_filter.1 hmem).2
  have hcard := Finset.card_le_card hsub
  rw [Finset.card_insert_of_not_mem hnotmem] at hcard
  omega

theorem rankFirst_injOn (cl : List Nat) :
    Set.InjOn (rankFirst cl) (Finset.range cl.length) := by
  intro i hi j hj hij
  by_contra hne
  rcases keyLt_total cl hne with h | h
  · have := rankFirst_lt_of_keyLt cl (by simpa using hi) h
    omega
  · have := rankFirst_lt_of_keyLt cl (by simpa using hj) h
    omega

theorem rankFirst_ge_one (cl : List Nat) (i : Nat) : 1 ≤ rankFirst cl i := by
  rw [rankFirst_eq_card]; omega

theorem rankFirst_le_length (cl : List Nat) {i : Nat} (hi : i < cl.length) :
    rankFirst cl i ≤ cl.length := by
  rw [rankFirst_eq_card]
  have hsub : (Finset.range cl.length).filter (fun k => keyLt cl k i) ⊆
      (Finset.range cl.length).erase i := by
    intro k hk
    rcases Finset.mem_filter.1 hk with ⟨hk1, hk2⟩
    refine Finset.mem_erase.2 ⟨?_, hk1⟩
    rintro rfl
    exact keyLt_irrefl cl k hk2
  have hcard := Finset.card_le_card hsub
  rw [Finset.card_erase_of_mem (Finset.mem_range.2 hi), Finset.card_range] at hcard
  omega

theorem rankFirst_image (cl : List Nat) :
    (Finset.range cl.length).image (rankFirst cl) = Finset.Icc 1 cl.length := by
  refine Finset.eq_of_subset_of_card_le ?_ ?_
  · intro r hr
    rcases Finset.mem_image.1 hr with ⟨i, hi, rfl⟩
    exact Finset.mem_Icc.2 ⟨rankFirst_ge_one cl i,
      rankFirst_le_length cl (Finset.mem_range.1 hi)⟩
  · rw [Finset.card_image_of_injOn (rankFirst_injOn cl), Finset.card_range,
      Nat.card_Icc]
    omega

theorem div_eq_iff_of_pos {a b q : Nat} (hb : 0 < b) :
    a / b = q ↔ q * b ≤ a ∧ a < (q + 1) * b := by
  constructor
  · intro h
    constructor
    · exact (Nat.le_div_iff_mul_le hb).1 (le_of_eq h.symm)
    · exact (Nat.div_lt_iff_lt_mul hb).1 (by omega)
  · rintro ⟨h1, h2⟩
    have ha : q ≤ a / b := (Nat.le_div_iff_mul_le hb).2 h1
    have hb2 : a / b < q + 1 := (Nat.div_lt_iff_lt_mul hb).2 h2
    omega

theorem qcutDecile_bounds (N r : Nat) (_h1 : 1 ≤ r) (h2 : r ≤ N) :
    1 ≤ qcutDecile N r ∧ qcutDecile N r ≤ 10 := by
  unfold qcutDecile
  by_cases hr : r ≤ 1
  · rw [if_pos hr]; omega
  · rw [if_neg hr]
    have hN : 2 ≤ N := by omega
    have hb : 0 < N - 1 := by omega
    constructor
    · refine (Nat.le_div_iff_mul_le hb).2 ?_
      omega
    · have := (Nat.div_lt_iff_lt_mul hb).2
        (show 10 * (r - 1) + (N - 2) < 11 * (N - 1) by omega)
      omega

theorem qcutDecile_Icc_filter (m q : Nat) (hm : 1 ≤ m) (hq1 : 1 ≤ q) (hq10 : q ≤ 10) :
    (Finset.Icc 1 (10 * m)).filter (fun r => qcutDecile (10 * m) r = q) =
      Finset.Icc ((q - 1) * m + 1) (q * m) := by
  ext r
  simp only [Finset.mem_filter, Finset.mem_Icc]
  unfold qcutDecile
  by_cases hr : r ≤ 1
  · rw [if_pos hr]
    interval_cases q <;> omega
  · rw [if_neg hr]
    have hb : 0 < 10 * m - 1 := by omega
    rw [div_eq_iff_of_pos hb]
    interval_cases q <;> omega

theorem decile_class_count (cl : List Nat) (q : Nat) (hq1 : 1 ≤ q) (hq10 : q ≤ 10)
    (hdvd : 10 ∣ cl.length) :
    ((Finset.range cl.length).filter
      (fun i => qcutDecile cl.length (rankFirst cl i) = q)).card = cl.length / 10 := by
  rcases hdvd with ⟨m, hm⟩
  rcases Nat.eq_zero_or_pos m with rfl | hmpos
  · simp only [hm]
    simp
  · have himg : (Finset.range cl.length).filter
        (fun i => qcutDecile cl.length (rankFirst cl i) = q) =
        (Finset.range cl.length).filter
          ((fun r => qcutDecile cl.length r = q) ∘ rankFirst cl) := rfl
    rw [himg]
    have hcard : ((Finset.range cl.length).filter
        ((fun r => qcutDecile cl.length r = q) ∘ rankFirst cl)).card =
        (((Finset.range cl.length).image (rankFirst cl)).filter
          (fun r => qcutDecile cl.length r = q)).card := by
      rw [Finset.filter_image]
      rw [Finset.card_image_of_injOn
        (Set.InjOn.mono (by
          intro x hx
          simpa using (Finset.filter_subset _ _ hx)) (rankFirst_injOn cl))]
      simp only [Function.comp_def]
    rw [hcard, rankFirst_image, hm, qcutDecile_Icc_filter m q hmpos hq1 hq10,
      Nat.card_Icc]
    have hqm : q * m = (q - 1) * m + m := by
      cases q with
      | zero => omega
      | succ qq => simp [Nat.succ_mul, Nat.succ_sub_one]
    omega

/-- C4: `activity_decile` is computed by ranking total clicks across all
joined rows of the whole population (stable first-occurrence tie-break,
embodied in `rankFirst`/`keyLt`), bucketing rank `r` of `N` into decile
`⌈10(r-1)/(N-1)⌉` (`qcutDecile`); every persisted row satisfies
`1 ≤ activity_decile ≤ 10`, and when 10 divides the row count each decile
label 1..10 is assigned to exactly `N/10` rows. -/
theorem C4_activity_decile (n : Nat) (y0 y1 : Int) (d : Draws) :
    (∀ row ∈ pipeline_analytic n y0 y1 d,
        1 ≤ row.activity_decile ∧ row.activity_decile ≤ 10)
    ∧ ∀ (j : List JoinedRow) (q : Nat), 10 ∣ j.length → 1 ≤ q → q ≤ 10 →
        ((analytic_rows j).filter
          (fun r => decide (r.activity_decile = q))).length = j.length / 10 := by
  constructor
  · intro row hrow
    rcases (mem_analytic_rows (joinedOf n y0 y1 d) row).1 hrow with ⟨i, hi, rfl⟩
    simp only [analyticBuild]
    have hlen : ((joinedOf n y0 y1 d).map (fun r => r.clicks)).length =
        (joinedOf n y0 y1 d).length := List.length_map _ _
    refine qcutDecile_bounds _ _ (rankFirst_ge_one _ i) ?_
    have := rankFirst_le_length ((joinedOf n y0 y1 d).map (fun r => r.clicks))
      (by omega : i < ((joinedOf n y0 y1 d).map (fun r => r.clicks)).length)
    omega
  · intro j q hdvd hq1 hq10
    have hconv : ((analytic_rows j).filter
        (fun r => decide (r.activity_decile = q))).length =
        ((List.range j.length).filter
          (fun i => decide (qcutDecile j.length
            (rankFirst (j.map (fun r => r.clicks)) i) = q))).length := by
      rw [analytic_rows, ← List.countP_eq_length_filter, List.countP_map,
        List.countP_eq_length_filter]
      congr 1
    rw [hconv, length_filter_range_card]
    have hlen : (j.map (fun r => r.clicks)).length = j.length := List.length_map _ _
    have hdvd2 : 10 ∣ (j.map (fun r => r.clicks)).length := by
      rw [hlen]; exact hdvd
    have hmain := decile_class_count (j.map (fun r => r.clicks)) q hq1 hq10 hdvd2
    rw [hlen] at hmain
    exact hmain

/-- Witness instantiating `C4_activity_decile`'s decile-class count at a
concrete 10-row frame. -/
theorem C4_activity_decile_witness :
    ((analytic_rows (List.replicate 10 dfltJoined)).filter
      (fun r => decide (r.activity_decile = 5))).length =
      (List.replicate 10 dfltJoined).length / 10 :=
  (C4_activity_decile 0 2012 2025 d0).2 (List.replicate 10 dfltJoined) 5
    (by decide) (by decide) (by decide)

/-! ## C7: configuration handling -/

set_option maxRecDepth 1000000 in
/-- C7 counterexample: with an inverted window (`year_start = 2025`,
`year_end = 2012`, so year_end < year_start) and one student, the run is NOT
rejected: `parse_args` performs no validation, generation proceeds, all eight
tables are written and the process exits 0. -/
theorem C7_counterexample :
    (2012 : Int) < 2025
    ∧ (mainRun 1 2025 2012 d0).1.map Prod.fst =
        ["students", "attendance", "lms_activity", "assessments",
         "student_events", "attendance_term", "lms_term", "analytic_student_term"]
    ∧ (mainRun 1 2025 2012 d0).2 = 0 := by
  refine ⟨by decide, ?_, ?_⟩ <;> decide

/-- C7 (amended): what actually happens on bad configurations. A negative
student count makes `rng.choice(..., size=n)` raise inside `make_students`,
before the database is even opened, so nothing is written and the run exits 1
(modelled by the `count < 0` branch of `mainRun`). A zero student count is not
rejected either: the five base frames are generated empty, the six tables up
to `attendance_term` are written, then the `lms_term` loop collects no pieces
and `pd.concat([])` raises before `lms_term` is written, so the run exits 1
with six (empty) tables already persisted. No configuration is rejected
before generation begins. -/
theorem C7_config_handling :
    (∀ (c y0 y1 : Int) (d : Draws), c < 0 → mainRun c y0 y1 d = ([], 1))
    ∧ ∀ (y0 y1 : Int) (d : Draws),
        (mainRun 0 y0 y1 d).1.map Prod.fst =
          ["students", "attendance", "lms_activity", "assessments",
           "student_events", "attendance_term"]
        ∧ (mainRun 0 y0 y1 d).2 = 1 := by
  constructor
  · intro c y0 y1 d h
    unfold mainRun
    rw [if_pos h]
  · intro y0 y1 d
    exact ⟨rfl, rfl⟩

/-- Witness instantiating `C7_config_handling` at concrete configurations. -/
theorem C7_config_handling_witness :
    mainRun (-5) 2012 2025 d0 = ([], 1)
    ∧ ((mainRun 0 2012 2025 d0).1.map Prod.fst =
        ["students", "attendance", "lms_activity", "assessments",
         "student_events", "attendance_term"]
      ∧ (mainRun 0 2012 2025 d0).2 = 1) :=
  ⟨C7_config_handling.1 (-5) 2012 2025 d0 (by decide),
   C7_config_handling.2 2012 2025 d0⟩
